import Mathlib

-- Verification of the overlap-grouping / layering core of multi-sampler.py.
-- The Python classes SamploRange and SamploGroup and the functions
-- insert_in_groups and move_through_groups are embedded as pure functions
-- on lists. Mutable object identity is modelled by the id field of SRange;
-- the cached aggregate bounds of a group, which the source keeps equal to
-- the minimum start and maximum end of the members at every point where
-- they are read, are modelled by the derived functions gStart and gEnd.

set_option maxHeartbeats 1000000

/-- A sampler note range. The source class SamploRange carries mutable
integer bounds, the attributes start and end, together with object
identity. The field stop models the attribute end, and the field id
models object identity: two live SamploRange objects are never equal,
which corresponds to distinct id fields here. -/
structure SRange where
  id : Nat
  start : Int
  stop : Int
deriving DecidableEq

/-- The member list SamploGroup.sranges of one group. -/
abbrev SamploGroup := List SRange

/-- The global list render_groups. -/
abbrev Groups := List SamploGroup

/-- The invariant assumed by the data model for a single range. -/
def validR (r : SRange) : Prop := r.start ≤ r.stop

instance : DecidablePred validR :=
  fun r => inferInstanceAs (Decidable (r.start ≤ r.stop))

/-- Aggregate lower bound of a group, the source field SamploGroup.start,
kept equal to min(x.start for x in self.sranges) by add, remove and merge.
The value on an empty group is never read by the source, which discards
empty groups at once; 0 is a junk value for that case. -/
def gStart : SamploGroup → Int
  | [] => 0
  | [r] => r.start
  | r :: s :: rs => min r.start (gStart (s :: rs))

/-- Aggregate upper bound of a group, the source field SamploGroup.end,
kept equal to max(x.end for x in self.sranges). -/
def gEnd : SamploGroup → Int
  | [] => 0
  | [r] => r.stop
  | r :: s :: rs => max r.stop (gEnd (s :: rs))

/-- SamploGroup.intersect: the overlap test of a group against a range,
returning False exactly when srange.end < self.start or self.end <
srange.start. -/
def intersect (g : SamploGroup) (r : SRange) : Bool :=
  if r.stop < gStart g then false
  else if gEnd g < r.start then false
  else true

/-- The same source method applied to another group in move_through_groups
where group.intersect(srange.render_group) duck-types the argument: the
argument bounds are the aggregate bounds of the other group. -/
def intersectGG (g h : SamploGroup) : Bool :=
  if gEnd h < gStart g then false
  else if gEnd g < gStart h then false
  else true

/-- insert_in_groups together with the render_group assignment: the range
is appended (SamploGroup.add) to the first group whose aggregate bounds
intersect it, and otherwise a new singleton group is appended at the end
of the group list. The second component is the group the range ended in,
modelling srange.render_group after the call. -/
def insertInGroupsRG : Groups → SRange → Groups × SamploGroup
  | [], r => ([[r]], [r])
  | g :: gs, r =>
    if intersect g r then ((g ++ [r]) :: gs, g ++ [r])
    else
      let p := insertInGroupsRG gs r
      (g :: p.1, p.2)

/-- insert_in_groups with the update_srange flag ignored, since the
render_group pointer is modelled by membership. -/
def insertInGroups (groups : Groups) (r : SRange) : Groups :=
  (insertInGroupsRG groups r).1

/-- SamploGroup.split: every remaining member is reinserted into a fresh
group list with insert_in_groups. -/
def splitG (rs : SamploGroup) : Groups :=
  rs.foldl insertInGroups []

/-- The comparison key of the sort in create_layers: ascending start. -/
def startLE (a b : SRange) : Prop := a.start ≤ b.start

instance : DecidableRel startLE :=
  fun a b => inferInstanceAs (Decidable (a.start ≤ b.start))

instance : IsTotal SRange startLE := ⟨fun a b => le_total a.start b.start⟩

instance : IsTrans SRange startLE := ⟨fun _ _ _ h1 h2 => le_trans h1 h2⟩

/-- The stable sort self.sranges.sort(key=lambda x: x.start) performed at
the start of create_layers. -/
def sortByStart (g : SamploGroup) : SamploGroup := List.insertionSort startLE g

/-- The ranges appended to the current layer during one scan of the todo
list in create_layers: a range is taken exactly when its start is strictly
greater than the end of the last range placed in the layer. -/
def pick (last : SRange) : SamploGroup → SamploGroup
  | [] => []
  | x :: xs => if last.stop < x.start then x :: pick x xs else pick last xs

/-- The ranges left in the todo list after one scan in create_layers. -/
def rest (last : SRange) : SamploGroup → SamploGroup
  | [] => []
  | x :: xs => if last.stop < x.start then rest x xs else x :: rest last xs

/-- The while loop of create_layers: repeatedly seed a layer with the
first todo range and scan the remaining todo ranges. The fuel argument is
an upper bound on the number of iterations; the todo list shrinks by at
least the seed each pass, so fuel equal to the list length suffices. -/
def createLayersAux : Nat → SamploGroup → Groups
  | 0, _ => []
  | _, [] => []
  | n + 1, seed :: todo => (seed :: pick seed todo) :: createLayersAux n (rest seed todo)

/-- SamploGroup.create_layers: sort the members by ascending start, then
greedily extract layers. Returns self.layers. -/
def create_layers (rs : SamploGroup) : Groups :=
  createLayersAux (sortByStart rs).length (sortByStart rs)

/-- SamploGroup.update_srange_layers effect on the member list: it calls
create_layers, which sorts self.sranges in place by ascending start. The
layer and layer_count caches written to the members are derived data,
recomputable from create_layers of this list. -/
def update_srange_layers (g : SamploGroup) : SamploGroup := sortByStart g

/-- The removal section of move_through_groups, lines 417 to 436 of the
source, which is also the manager level remove operation of the design:
the range is removed (SamploGroup.remove, whose try/except makes removal
of a missing member a silent no-op) from the group that contains it, the
group is discarded when it became empty, and otherwise split when the
remaining members fall apart; the touched groups are re-layered, which
sorts their member lists. -/
def removePhase : Groups → SRange → Groups
  | [], _ => []
  | g :: gs, r =>
    if r ∈ g then
      let g' := g.erase r
      if g' = [] then gs
      else
        let splits := splitG g'
        if 1 < splits.length then gs ++ splits.map update_srange_layers
        else update_srange_layers g' :: gs
    else g :: removePhase gs r

/-- The merge loop of move_through_groups. The first argument is the
snapshot list(groups) being iterated; the second is the current group
list; the third is the current srange.render_group. When the iterated
group is the render group it is skipped; when its bounds intersect the
render group it absorbs it (SamploGroup.merge appends the absorbed member
list), the absorbed group object is removed from the group list, and the
render group pointer moves to the absorbing group. -/
def mergeLoop : Groups → Groups → SamploGroup → Groups × SamploGroup
  | [], groups, rg => (groups, rg)
  | g :: snap, groups, rg =>
    if g = rg then mergeLoop snap groups rg
    else if intersectGG g rg then
      mergeLoop snap ((groups.map fun h => if h = g then g ++ rg else h).erase rg) (g ++ rg)
    else mergeLoop snap groups rg

/-- The second half of move_through_groups: reinsert the range, run the
merge loop over a snapshot of the group list, and re-layer the final
render group, which sorts its member list. -/
def insertMergePhase (groups : Groups) (r : SRange) : Groups :=
  let p := insertInGroupsRG groups r
  let q := mergeLoop p.1 p.1 p.2
  q.1.map fun h => if h = q.2 then update_srange_layers q.2 else h

/-- move_through_groups: remove the range from its current group,
splitting if necessary, then reinsert it and merge every group whose
bounds intersect the new render group, finally re-layer. A range whose
render_group is None, that is one tracked by no group, skips the removal
phase unchanged. -/
def move_through_groups (groups : Groups) (r : SRange) : Groups :=
  insertMergePhase (removePhase groups r) r

/-- All ranges tracked by the manager, in group order. -/
def joinG : Groups → SamploGroup
  | [] => []
  | g :: gs => g ++ joinG gs

/-- The object identities of all tracked ranges. -/
def idsOf (s : Groups) : List Nat := (joinG s).map SRange.id

/-- An in-place mutation of the bounds of a tracked range, as performed by
the drag handlers before move_through_groups is called: the object r is
replaced by the object rn with the same identity and new bounds. -/
def retarget (s : Groups) (r rn : SRange) : Groups :=
  s.map fun g => g.map fun x => if x = r then rn else x

/-- The states of the render group list reachable from the empty manager:
insertion of a fresh range (setup and parse call move_through_groups on a
newly created SamploRange), removal of a range, and update of the bounds
of a tracked range followed by move_through_groups (the drag handler
mouse). Inserted and updated ranges satisfy the data model invariant
start ≤ end, and identities are fresh respectively preserved. -/
inductive Reach : Groups → Prop
  | nil : Reach []
  | insert (s : Groups) (r : SRange) : Reach s → r.id ∉ idsOf s → validR r →
      Reach (move_through_groups s r)
  | remove (s : Groups) (r : SRange) : Reach s → Reach (removePhase s r)
  | update (s : Groups) (r rn : SRange) : Reach s → r ∈ joinG s → rn.id = r.id → validR rn →
      Reach (move_through_groups (retarget s r rn) rn)

/-- Overlap of two ranges as closed integer intervals; this is the member
level relation that the aggregate bound tests of the source decide. -/
def overlap (a b : SRange) : Prop := a.start ≤ b.stop ∧ b.start ≤ a.stop

/-- A chain of pairwise overlaps through members of g connecting x to y. -/
def connIn (g : SamploGroup) (x y : SRange) : Prop :=
  Relation.ReflTransGen (fun a b => a ∈ g ∧ b ∈ g ∧ overlap a b) x y

/-- The members of g form a single overlap-connected component. -/
def conn (g : SamploGroup) : Prop := ∀ x ∈ g, ∀ y ∈ g, connIn g x y

/-- The number of member ranges that cover the integer point p. -/
def depth (ms : SamploGroup) (p : Int) : Nat :=
  ms.countP fun r => decide (r.start ≤ p ∧ p ≤ r.stop)

/-- The no-gap condition on a member list scanned left to right: every
next start is at most the running maximum of the ends, the running
maximum starting at e. -/
def chainedFrom (e : Int) : SamploGroup → Prop
  | [] => True
  | a :: rs => a.start ≤ e ∧ chainedFrom (max e a.stop) rs

/-- The no-gap condition for a whole group member list. -/
def chained : SamploGroup → Prop
  | [] => True
  | a :: rs => chainedFrom a.stop rs

/-- The running maximum of member ends while scanning a member list,
starting from e. -/
def foldMax (e : Int) (g : SamploGroup) : Int := g.foldl (fun a x => max a x.stop) e

/-- The union of the member intervals fills the aggregate bounds: stated
at doubled integer coordinates so that midpoints between adjacent integer
endpoints are available. -/
def covers (g : SamploGroup) : Prop :=
  ∀ p : Int, 2 * gStart g ≤ p → p ≤ 2 * gEnd g → ∃ m ∈ g, 2 * m.start ≤ p ∧ p ≤ 2 * m.stop

/-- SamploRange.resize events: a drag on the right handle with cursor
position x, and a drag on the left handle with the drag-start value
resize_start_left and cursor position x; w is width_per_note. -/
inductive ResizeEvent where
  | toRight (x w : Int)
  | toLeft (rsl x w : Int)

/-- SamploRange.resize: to the right, end_new = max(0, floor(x / w)) and
the new end is start + end_new; to the left, with x_new = x +
(start - resize_start_left) * w, start_new = min(end - resize_start_left,
floor(x_new / w)) and the new start is resize_start_left + start_new.
Python floor division on ints is Int.fdiv. -/
def resize (r : SRange) : ResizeEvent → SRange
  | .toRight x w => { r with stop := r.start + max 0 (Int.fdiv x w) }
  | .toLeft rsl x w =>
      { r with start := rsl + min (r.stop - rsl) (Int.fdiv (x + (r.start - rsl) * w) w) }

/-- The row height assigned by SamploRange.redraw to a layer: with
max_height H and layer_count n, height = H // n, and the last layer
additionally absorbs H - n * (H // n). -/
def redraw_height (H : Int) (n : Nat) (layer : Nat) : Int :=
  if layer = n - 1 then Int.fdiv H n + (H - n * Int.fdiv H n) else Int.fdiv H n

/-- Bounds separation of two groups: the aggregate bound intervals are
strictly apart, the negation of the intersect test. -/
def Disj (g h : SamploGroup) : Prop := gEnd g < gStart h ∨ gEnd h < gStart g

/-- Well-formedness of one group as re-established by the source for
every touched group at the end of each operation: nonempty (empty groups
are discarded at once), member list sorted by ascending start (the sort in
create_layers), no gap when scanned left to right, and valid members. -/
structure GrpOk (g : SamploGroup) : Prop where
  ne : g ≠ []
  sorted : List.Sorted startLE g
  chain : chained g
  valid : ∀ m ∈ g, validR m

/-- Well-formedness of the whole render group list between operations. -/
structure StateOk (s : Groups) : Prop where
  ok : ∀ g ∈ s, GrpOk g
  nodup : (idsOf s).Nodup
  disj : s.Pairwise Disj

/-- Properties of the current render group inside move_through_groups
before its final re-layering: nonempty, valid, and covering its bounds,
though not necessarily sorted since SamploGroup.add and merge append. -/
structure RgOk (rg : SamploGroup) : Prop where
  ne : rg ≠ []
  valid : ∀ m ∈ rg, validR m
  cov : covers rg

/-- The invariant of the accumulating group list inside SamploGroup.split,
whose members are inserted in ascending start order: the partial groups
are well-formed and lie strictly left to right. -/
structure SplitAcc (acc : Groups) : Prop where
  ok : ∀ g ∈ acc, GrpOk g
  ordered : acc.Pairwise fun g h => gEnd g < gStart h

-- ## Theorems

/-- C3, counterexample: the claim states that two intervals touching at a
single shared endpoint, A.end == B.start, are not considered overlapping,
and that inserting B into a manager whose only group contains A creates a
new singleton group for B. On the code, with A = [0,5] and B = [5,10],
SamploGroup.intersect returns True and insert_in_groups adds B to the
group of A instead of creating a singleton group. -/
theorem c3_open_adjacency_counterexample :
    intersect [(⟨0, 0, 5⟩ : SRange)] ⟨1, 5, 10⟩ = true
    ∧ insertInGroups [[(⟨0, 0, 5⟩ : SRange)]] ⟨1, 5, 10⟩ ≠ [[⟨0, 0, 5⟩], [⟨1, 5, 10⟩]]
    ∧ insertInGroups [[(⟨0, 0, 5⟩ : SRange)]] ⟨1, 5, 10⟩ = [[⟨0, 0, 5⟩, ⟨1, 5, 10⟩]] := by
  refine ⟨rfl, ?_, rfl⟩
  decide

/-- C3, amended: for valid intervals A and B with A.end == B.start, the
code treats A and B as overlapping (the bound tests are inclusive, so only
strict separation counts as non-overlap), and inserting B into a manager
whose only group contains A appends B to the group of A. -/
theorem c3_open_adjacency_amended (a b : SRange) (ha : validR a) (hb : validR b)
    (hshare : a.stop = b.start) :
    intersect [a] b = true ∧ insertInGroups [[a]] b = [[a, b]] := by
  have h1 : intersect [a] b = true := by
    unfold intersect gStart gEnd
    unfold validR at ha hb
    rw [if_neg (by omega), if_neg (by omega)]
  refine ⟨h1, ?_⟩
  unfold insertInGroups insertInGroupsRG
  rw [if_pos h1]
  rfl

/-- C7: starting from the empty manager, inserting [0,5], [3,8], [6,10] in
that order yields exactly one group containing all three ranges, and
create_layers on that group produces exactly two layers, layer 0 holding
[0,5] and [6,10] and layer 1 holding [3,8]. -/
theorem c7_chained_overlap_scenario :
    move_through_groups (move_through_groups (move_through_groups []
        (⟨0, 0, 5⟩ : SRange)) ⟨1, 3, 8⟩) ⟨2, 6, 10⟩
      = [[⟨0, 0, 5⟩, ⟨1, 3, 8⟩, ⟨2, 6, 10⟩]]
    ∧ create_layers [⟨0, 0, 5⟩, ⟨1, 3, 8⟩, ⟨2, 6, 10⟩]
      = [[⟨0, 0, 5⟩, ⟨2, 6, 10⟩], [⟨1, 3, 8⟩]] := by
  constructor <;> decide

/-- C10: every drag-resize preserves start ≤ end: a resize to the right
clamps the note delta to at least 0, so the new end never drops below
start, and a resize to the left clamps the new start to at most the
current end; hence any sequence of resize events on a range that
initially satisfies start ≤ end keeps the invariant. -/
theorem c10_resize_invariant (r : SRange) (h : validR r) (evs : List ResizeEvent) :
    validR (evs.foldl resize r) := by
  induction evs generalizing r with
  | nil => exact h
  | cons e evs ih =>
    refine ih _ ?_
    cases e with
    | toRight x w =>
      unfold validR resize
      simp only
      have := le_max_left (0 : Int) (Int.fdiv x w)
      omega
    | toLeft rsl x w =>
      unfold validR resize
      simp only
      have := min_le_left (r.stop - rsl) (Int.fdiv (x + (r.start - rsl) * w) w)
      omega

/-- Witness for C10 at a concrete range and event list. -/
theorem c10_resize_invariant_witness :
    validR (([ResizeEvent.toRight 37 20, ResizeEvent.toLeft 2 (-15) 20]).foldl resize
      ⟨0, 2, 6⟩) :=
  c10_resize_invariant ⟨0, 2, 6⟩ (by decide) _

/-- C9: for a group drawn with layer count n ≥ 1 into available height H,
redraw gives every non-last layer the row height H // n and the last layer
the row height H // n + (H - n * (H // n)), so the n row heights sum
exactly to H. -/
theorem c9_last_layer_remainder (H : Int) (n : Nat) (hn : 1 ≤ n) :
    (∀ layer : Nat, layer < n - 1 → redraw_height H n layer = Int.fdiv H n)
    ∧ redraw_height H n (n - 1) = Int.fdiv H n + (H - n * Int.fdiv H n)
    ∧ (Finset.range n).sum (redraw_height H n) = H := by
  refine ⟨fun layer hl => ?_, ?_, ?_⟩
  · unfold redraw_height
    rw [if_neg (by omega)]
  · unfold redraw_height
    rw [if_pos rfl]
  · obtain ⟨m, rfl⟩ : ∃ m, n = m + 1 := ⟨n - 1, by omega⟩
    rw [Finset.sum_range_succ]
    have hconst : ∀ layer ∈ Finset.range m,
        redraw_height H (m + 1) layer = Int.fdiv H ((m : Int) + 1) := by
      intro layer hl
      rw [Finset.mem_range] at hl
      unfold redraw_height
      rw [if_neg (by omega)]
      norm_cast
    rw [Finset.sum_congr rfl hconst, Finset.sum_const, Finset.card_range]
    have hlast : redraw_height H (m + 1) m
        = Int.fdiv H ((m : Int) + 1) + (H - ((m : Int) + 1) * Int.fdiv H ((m : Int) + 1)) := by
      unfold redraw_height
      rw [if_pos (by omega)]
      push_cast
      ring
    rw [hlast, nsmul_eq_mul]
    ring

/-- Witness for C9 at H = 401 and n = 3. -/
theorem c9_last_layer_remainder_witness :
    (∀ layer : Nat, layer < 3 - 1 → redraw_height 401 3 layer = Int.fdiv 401 3)
    ∧ redraw_height 401 3 (3 - 1) = Int.fdiv 401 3 + (401 - 3 * Int.fdiv 401 3)
    ∧ (Finset.range 3).sum (redraw_height 401 3) = 401 :=
  c9_last_layer_remainder 401 3 (by decide)

/-- Witness for the amended C3 at A = [0,5], B = [5,10]. -/
theorem c3_open_adjacency_amended_witness :
    intersect [(⟨0, 0, 5⟩ : SRange)] ⟨1, 5, 10⟩ = true
    ∧ insertInGroups [[(⟨0, 0, 5⟩ : SRange)]] ⟨1, 5, 10⟩ = [[⟨0, 0, 5⟩, ⟨1, 5, 10⟩]] :=
  c3_open_adjacency_amended ⟨0, 0, 5⟩ ⟨1, 5, 10⟩ (by decide) (by decide) (by decide)

-- ## Layer construction lemmas

theorem pick_sublist (l : SRange) : ∀ xs : SamploGroup, (pick l xs).Sublist xs := by
  intro xs
  induction xs generalizing l with
  | nil => simp [pick]
  | cons x xs ih =>
    unfold pick
    by_cases h : l.stop < x.start
    · rw [if_pos h]
      exact List.Sublist.cons₂ x (ih x)
    · rw [if_neg h]
      exact List.Sublist.cons x (ih l)

theorem rest_sublist (l : SRange) : ∀ xs : SamploGroup, (rest l xs).Sublist xs := by
  intro xs
  induction xs generalizing l with
  | nil => simp [rest]
  | cons x xs ih =>
    unfold rest
    by_cases h : l.stop < x.start
    · rw [if_pos h]
      exact List.Sublist.cons x (ih x)
    · rw [if_neg h]
      exact List.Sublist.cons₂ x (ih l)

theorem rest_length (l : SRange) (xs : SamploGroup) : (rest l xs).length ≤ xs.length :=
  (rest_sublist l xs).length_le

theorem pick_append_rest_perm (l : SRange) :
    ∀ xs : SamploGroup, (pick l xs ++ rest l xs).Perm xs := by
  intro xs
  induction xs generalizing l with
  | nil => simp [pick, rest]
  | cons x xs ih =>
    unfold pick rest
    by_cases h : l.stop < x.start
    · rw [if_pos h, if_pos h]
      exact (ih x).cons x
    · rw [if_neg h, if_neg h]
      exact (List.perm_middle).trans ((ih l).cons x)

theorem createLayersAux_nil : ∀ n : Nat, createLayersAux n [] = [] := by
  intro n
  cases n <;> rfl

/-- Each layer produced by the greedy scan is strictly separated left to
right: each placed range ends strictly before the next placed one starts. -/
theorem layer_sep :
    ∀ (todo : SamploGroup) (seed : SRange), List.Sorted startLE (seed :: todo) →
      (seed :: pick seed todo).Pairwise fun a b => a.stop < b.start := by
  intro todo
  induction todo with
  | nil =>
    intro seed _
    simp [pick]
  | cons x xs ih =>
    intro seed hs
    unfold pick
    by_cases h : seed.stop < x.start
    · rw [if_pos h]
      have htail : List.Sorted startLE (x :: xs) := hs.of_cons
      have hx := ih x htail
      refine List.Pairwise.cons ?_ hx
      intro b hb
      rw [List.mem_cons] at hb
      rcases hb with rfl | hb
      · exact h
      · have hbxs : b ∈ xs := (pick_sublist x xs).subset hb
        have hxb : startLE x b := (List.rel_of_sorted_cons htail) b hbxs
        unfold startLE at hxb
        omega
    · rw [if_neg h]
      have hsub : (seed :: xs).Sublist (seed :: x :: xs) :=
        List.Sublist.cons₂ seed (List.sublist_cons_self x xs)
      exact ih seed (List.Pairwise.sublist hsub hs)

/-- Every range left in the todo list after one greedy scan has its start
covered by some range already placed in the layer. -/
theorem coverRest :
    ∀ (todo : SamploGroup) (seed : SRange), List.Sorted startLE todo →
      (∀ y ∈ todo, seed.start ≤ y.start) →
      ∀ x ∈ rest seed todo,
        ∃ e ∈ seed :: pick seed todo, e.start ≤ x.start ∧ x.start ≤ e.stop := by
  intro todo
  induction todo with
  | nil =>
    intro seed _ _ x hx
    simp [rest] at hx
  | cons y ys ih =>
    intro seed hs hle x hx
    unfold rest at hx
    by_cases h : seed.stop < y.start
    · rw [if_pos h] at hx
      have hys : List.Sorted startLE ys := hs.of_cons
      have hley : ∀ z ∈ ys, y.start ≤ z.start := fun z hz => (List.rel_of_sorted_cons hs) z hz
      obtain ⟨e, he, h1, h2⟩ := ih y hys hley x hx
      refine ⟨e, ?_, h1, h2⟩
      unfold pick
      rw [if_pos h]
      rw [List.mem_cons] at he ⊢
      rcases he with rfl | he
      · exact Or.inr (List.mem_cons_self _ _)
      · exact Or.inr (List.mem_cons_of_mem _ he)
    · rw [if_neg h] at hx
      rw [List.mem_cons] at hx
      rcases hx with rfl | hx
      · refine ⟨seed, List.mem_cons_self _ _, hle x (List.mem_cons_self _ _), by omega⟩
      · have hys : List.Sorted startLE ys := hs.of_cons
        have hley : ∀ z ∈ ys, seed.start ≤ z.start :=
          fun z hz => hle z (List.mem_cons_of_mem _ hz)
        obtain ⟨e, he, h1, h2⟩ := ih seed hys hley x hx
        refine ⟨e, ?_, h1, h2⟩
        unfold pick
        rw [if_neg h]
        exact he

/-- The layers are a partition of the sorted member list. -/
theorem joinG_createLayersAux :
    ∀ (n : Nat) (s : SamploGroup), s.length ≤ n → (joinG (createLayersAux n s)).Perm s := by
  intro n
  induction n with
  | zero =>
    intro s hs
    have : s = [] := List.length_eq_zero.mp (Nat.le_zero.mp hs)
    subst this
    rfl
  | succ n ih =>
    intro s hs
    cases s with
    | nil => rfl
    | cons seed todo =>
      have hlen : (rest seed todo).length ≤ n := by
        have := rest_length seed todo
        simp at hs
        omega
      have hperm := ih (rest seed todo) hlen
      show ((seed :: pick seed todo) ++ joinG (createLayersAux n (rest seed todo))).Perm _
      have h1 : ((seed :: pick seed todo) ++ joinG (createLayersAux n (rest seed todo))).Perm
          ((seed :: pick seed todo) ++ rest seed todo) :=
        List.Perm.append_left _ hperm
      have h2 : (seed :: pick seed todo) ++ rest seed todo
          = seed :: (pick seed todo ++ rest seed todo) := by
        simp
      have h3 : (seed :: (pick seed todo ++ rest seed todo)).Perm (seed :: todo) :=
        (pick_append_rest_perm seed todo).cons seed
      exact h1.trans (h2 ▸ h3)

/-- Every layer produced from a sorted list is strictly separated. -/
theorem createLayersAux_sep :
    ∀ (n : Nat) (s : SamploGroup), List.Sorted startLE s →
      ∀ layer ∈ createLayersAux n s, layer.Pairwise fun a b => a.stop < b.start := by
  intro n
  induction n with
  | zero =>
    intro s _ layer h
    simp [createLayersAux] at h
  | succ n ih =>
    intro s hs layer h
    cases s with
    | nil => simp [createLayersAux] at h
    | cons seed todo =>
      rw [show createLayersAux (n + 1) (seed :: todo)
          = (seed :: pick seed todo) :: createLayersAux n (rest seed todo) from rfl,
        List.mem_cons] at h
      rcases h with rfl | h
      · exact layer_sep todo seed hs
      · have hrest : List.Sorted startLE (rest seed todo) :=
          List.Pairwise.sublist (rest_sublist seed todo) hs.of_cons
        exact ih (rest seed todo) hrest layer h

theorem depth_append (a b : SamploGroup) (p : Int) :
    depth (a ++ b) p = depth a p + depth b p :=
  List.countP_append _ _ _

theorem depth_perm {a b : SamploGroup} (h : a.Perm b) (p : Int) : depth a p = depth b p :=
  h.countP_eq _

theorem one_le_depth {g : SamploGroup} {e : SRange} {p : Int} (he : e ∈ g)
    (h1 : e.start ≤ p) (h2 : p ≤ e.stop) : 1 ≤ depth g p := by
  have : 0 < depth g p := List.countP_pos_iff.mpr ⟨e, he, by simp [h1, h2]⟩
  omega

/-- At most one member of a pairwise non-overlapping list covers a point. -/
theorem depth_le_one_of_nonoverlap {g : SamploGroup}
    (h : g.Pairwise fun a b => ¬ overlap a b) (p : Int) : depth g p ≤ 1 := by
  induction g with
  | nil => simp [depth]
  | cons a g ih =>
    rw [List.pairwise_cons] at h
    have htail := ih h.2
    unfold depth at htail ⊢
    rw [List.countP_cons]
    by_cases ha : a.start ≤ p ∧ p ≤ a.stop
    · have hz : g.countP (fun r => decide (r.start ≤ p ∧ p ≤ r.stop)) = 0 := by
        rw [List.countP_eq_zero]
        intro b hb hbp
        rw [decide_eq_true_eq] at hbp
        exact (h.1 b hb) ⟨by omega, by omega⟩
      have hcond : decide (a.start ≤ p ∧ p ≤ a.stop) = true := by simpa using ha
      rw [if_pos hcond, hz]
    · have hcond : ¬ (decide (a.start ≤ p ∧ p ≤ a.stop) = true) := by simpa using ha
      rw [if_neg hcond]
      omega

/-- The depth of the union of non-overlapping layers is at most the number
of layers. -/
theorem depth_joinG_le {L : Groups}
    (h : ∀ layer ∈ L, layer.Pairwise fun a b => ¬ overlap a b) (p : Int) :
    depth (joinG L) p ≤ L.length := by
  induction L with
  | nil => simp [joinG, depth]
  | cons g L ih =>
    show depth (g ++ joinG L) p ≤ L.length + 1
    rw [depth_append]
    have h1 : depth g p ≤ 1 := depth_le_one_of_nonoverlap (h g (List.mem_cons_self _ _)) p
    have h2 := ih fun layer hl => h layer (List.mem_cons_of_mem _ hl)
    omega

/-- Strict separation within a layer implies non-overlap. -/
theorem sep_imp_nonoverlap {layer : SamploGroup}
    (h : layer.Pairwise fun a b => a.stop < b.start) :
    layer.Pairwise fun a b => ¬ overlap a b := by
  refine h.imp ?_
  intro a b hab hover
  unfold overlap at hover
  omega

/-- There is a point covered by as many members as there are layers. -/
theorem exists_deep_point :
    ∀ (n : Nat) (s : SamploGroup), s.length ≤ n → List.Sorted startLE s →
      (∀ r ∈ s, validR r) → s ≠ [] →
      ∃ x ∈ s, (createLayersAux n s).length ≤ depth s x.start := by
  intro n
  induction n with
  | zero =>
    intro s hs _ _ hne
    exact absurd (List.length_eq_zero.mp (Nat.le_zero.mp hs)) hne
  | succ n ih =>
    intro s hs hsort hv hne
    cases s with
    | nil => exact absurd rfl hne
    | cons seed todo =>
      have hlen : (rest seed todo).length ≤ n := by
        have := rest_length seed todo
        simp at hs
        omega
      have hperm : ((seed :: pick seed todo) ++ rest seed todo).Perm (seed :: todo) := by
        have h2 : (seed :: pick seed todo) ++ rest seed todo
            = seed :: (pick seed todo ++ rest seed todo) := by
          simp
        have h3 : (seed :: (pick seed todo ++ rest seed todo)).Perm (seed :: todo) :=
          (pick_append_rest_perm seed todo).cons seed
        exact h2 ▸ h3
      by_cases hr : rest seed todo = []
      · refine ⟨seed, List.mem_cons_self _ _, ?_⟩
        rw [show createLayersAux (n + 1) (seed :: todo)
            = (seed :: pick seed todo) :: createLayersAux n (rest seed todo) from rfl]
        rw [hr, createLayersAux_nil]
        have hvseed := hv seed (List.mem_cons_self _ _)
        unfold validR at hvseed
        have hd := one_le_depth (List.mem_cons_self seed todo) (le_refl seed.start) hvseed
        simpa using hd
      · have hsortr : List.Sorted startLE (rest seed todo) :=
          List.Pairwise.sublist (rest_sublist seed todo) hsort.of_cons
        have hvr : ∀ r ∈ rest seed todo, validR r :=
          fun r hr' => hv r (List.mem_cons_of_mem _ ((rest_sublist seed todo).subset hr'))
        obtain ⟨x, hx, hdeep⟩ := ih (rest seed todo) hlen hsortr hvr hr
        have hxs : x ∈ seed :: todo :=
          List.mem_cons_of_mem _ ((rest_sublist seed todo).subset hx)
        refine ⟨x, hxs, ?_⟩
        have hcover : ∃ e ∈ seed :: pick seed todo, e.start ≤ x.start ∧ x.start ≤ e.stop := by
          refine coverRest todo seed hsort.of_cons ?_ x hx
          intro y hy
          exact (List.rel_of_sorted_cons hsort) y hy
        obtain ⟨e, he, h1, h2⟩ := hcover
        have hd1 : 1 ≤ depth (seed :: pick seed todo) x.start := one_le_depth he h1 h2
        have hsplit : depth (seed :: todo) x.start
            = depth (seed :: pick seed todo) x.start + depth (rest seed todo) x.start := by
          rw [← depth_perm hperm, depth_append]
        rw [show createLayersAux (n + 1) (seed :: todo)
            = (seed :: pick seed todo) :: createLayersAux n (rest seed todo) from rfl]
        simp only [List.length_cons]
        omega

/-- C4: for every member list, after create_layers runs no two ranges
placed in the same layer overlap each other: every layer is a pairwise
non-overlapping set of member ranges. -/
theorem c4_layer_correctness (ms : SamploGroup) (layer : SamploGroup)
    (h : layer ∈ create_layers ms) : layer.Pairwise fun a b => ¬ overlap a b := by
  have hsort : List.Sorted startLE (sortByStart ms) := List.sorted_insertionSort startLE ms
  exact sep_imp_nonoverlap (createLayersAux_sep _ _ hsort layer h)

/-- Witness for C4 at the layer [0,5], [6,10] of the three-range group of
the chained scenario. -/
theorem c4_layer_correctness_witness :
    ([(⟨0, 0, 5⟩ : SRange), ⟨2, 6, 10⟩]).Pairwise fun a b => ¬ overlap a b :=
  c4_layer_correctness [⟨0, 0, 5⟩, ⟨1, 3, 8⟩, ⟨2, 6, 10⟩] [⟨0, 0, 5⟩, ⟨2, 6, 10⟩] (by decide)

/-- C2: for every member list of valid ranges, the greedy layering yields
exactly the minimum achievable number of layers, equal to the maximum over
all points of the axis of the number of members covering that point: every
point is covered by at most as many members as there are layers, some
point reaches that number, and every partition of the members into
pairwise non-overlapping layers uses at least as many layers. -/
theorem c2_layer_minimality (ms : SamploGroup) (hv : ∀ r ∈ ms, validR r) :
    (∀ p : Int, depth ms p ≤ (create_layers ms).length)
    ∧ (∃ p : Int, depth ms p = (create_layers ms).length)
    ∧ ∀ P : Groups, (joinG P).Perm ms →
        (∀ layer ∈ P, layer.Pairwise fun a b => ¬ overlap a b) →
        (create_layers ms).length ≤ P.length := by
  have hsort : List.Sorted startLE (sortByStart ms) := List.sorted_insertionSort startLE ms
  have hperm : (sortByStart ms).Perm ms := List.perm_insertionSort startLE ms
  have hcl : create_layers ms = createLayersAux (sortByStart ms).length (sortByStart ms) := rfl
  have hjoin : (joinG (create_layers ms)).Perm ms := by
    rw [hcl]
    exact (joinG_createLayersAux _ _ (le_refl _)).trans hperm
  have hsep : ∀ layer ∈ create_layers ms, layer.Pairwise fun a b => ¬ overlap a b := by
    intro layer hl
    rw [hcl] at hl
    exact sep_imp_nonoverlap (createLayersAux_sep _ _ hsort layer hl)
  have hub : ∀ p : Int, depth ms p ≤ (create_layers ms).length := by
    intro p
    rw [← depth_perm hjoin p]
    exact depth_joinG_le hsep p
  refine ⟨hub, ?_, ?_⟩
  · by_cases hne : ms = []
    · subst hne
      exact ⟨0, rfl⟩
    · have hsne : sortByStart ms ≠ [] := by
        intro hc
        exact hne (List.Perm.eq_nil (hc ▸ hperm.symm))
      have hvs : ∀ r ∈ sortByStart ms, validR r := fun r hr => hv r (hperm.subset hr)
      obtain ⟨x, hx, hdeep⟩ := exists_deep_point _ _ (le_refl _) hsort hvs hsne
      refine ⟨x.start, le_antisymm (hub x.start) ?_⟩
      rw [← depth_perm hperm x.start, hcl]
      exact hdeep
  · intro P hP hPno
    by_cases hne : ms = []
    · subst hne
      simp [create_layers, sortByStart, createLayersAux]
    · have hsne : sortByStart ms ≠ [] := by
        intro hc
        exact hne (List.Perm.eq_nil (hc ▸ hperm.symm))
      have hvs : ∀ r ∈ sortByStart ms, validR r := fun r hr => hv r (hperm.subset hr)
      obtain ⟨x, hx, hdeep⟩ := exists_deep_point _ _ (le_refl _) hsort hvs hsne
      have h1 : depth (sortByStart ms) x.start = depth (joinG P) x.start := by
        rw [depth_perm hperm x.start, depth_perm hP x.start]
      have h2 : depth (joinG P) x.start ≤ P.length := depth_joinG_le hPno x.start
      rw [hcl]
      omega

/-- Witness for C2 at the three-range group of the chained scenario. -/
theorem c2_layer_minimality_witness :
    (∀ p : Int, depth [(⟨0, 0, 5⟩ : SRange), ⟨1, 3, 8⟩, ⟨2, 6, 10⟩] p
        ≤ (create_layers [⟨0, 0, 5⟩, ⟨1, 3, 8⟩, ⟨2, 6, 10⟩]).length)
    ∧ (∃ p : Int, depth [(⟨0, 0, 5⟩ : SRange), ⟨1, 3, 8⟩, ⟨2, 6, 10⟩] p
        = (create_layers [⟨0, 0, 5⟩, ⟨1, 3, 8⟩, ⟨2, 6, 10⟩]).length)
    ∧ ∀ P : Groups, (joinG P).Perm [⟨0, 0, 5⟩, ⟨1, 3, 8⟩, ⟨2, 6, 10⟩] →
        (∀ layer ∈ P, layer.Pairwise fun a b => ¬ overlap a b) →
        (create_layers [(⟨0, 0, 5⟩ : SRange), ⟨1, 3, 8⟩, ⟨2, 6, 10⟩]).length ≤ P.length :=
  c2_layer_minimality [⟨0, 0, 5⟩, ⟨1, 3, 8⟩, ⟨2, 6, 10⟩] (by decide)

-- ## Aggregate bound lemmas

theorem gStart_cons (r : SRange) {g : SamploGroup} (h : g ≠ []) :
    gStart (r :: g) = min r.start (gStart g) := by
  cases g with
  | nil => exact absurd rfl h
  | cons s rs => rfl

theorem gEnd_cons (r : SRange) {g : SamploGroup} (h : g ≠ []) :
    gEnd (r :: g) = max r.stop (gEnd g) := by
  cases g with
  | nil => exact absurd rfl h
  | cons s rs => rfl

theorem gStart_le {g : SamploGroup} {r : SRange} (h : r ∈ g) : gStart g ≤ r.start := by
  induction g with
  | nil => simp at h
  | cons a g ih =>
    rw [List.mem_cons] at h
    cases g with
    | nil =>
      rcases h with rfl | h
      · exact le_refl _
      · simp at h
    | cons b t =>
      rw [gStart_cons a (by simp)]
      rcases h with rfl | h
      · omega
      · have := ih h
        omega

theorem gEnd_ge {g : SamploGroup} {r : SRange} (h : r ∈ g) : r.stop ≤ gEnd g := by
  induction g with
  | nil => simp at h
  | cons a g ih =>
    rw [List.mem_cons] at h
    cases g with
    | nil =>
      rcases h with rfl | h
      · exact le_refl _
      · simp at h
    | cons b t =>
      rw [gEnd_cons a (by simp)]
      rcases h with rfl | h
      · omega
      · have := ih h
        omega

theorem gStart_mem {g : SamploGroup} (h : g ≠ []) : ∃ r ∈ g, gStart g = r.start := by
  induction g with
  | nil => exact absurd rfl h
  | cons a g ih =>
    cases g with
    | nil => exact ⟨a, List.mem_cons_self _ _, rfl⟩
    | cons b t =>
      obtain ⟨r, hr, hre⟩ := ih (by simp)
      rw [gStart_cons a (by simp)]
      by_cases hc : a.start ≤ gStart (b :: t)
      · exact ⟨a, List.mem_cons_self _ _, by omega⟩
      · exact ⟨r, List.mem_cons_of_mem _ hr, by omega⟩

theorem gEnd_mem {g : SamploGroup} (h : g ≠ []) : ∃ r ∈ g, gEnd g = r.stop := by
  induction g with
  | nil => exact absurd rfl h
  | cons a g ih =>
    cases g with
    | nil => exact ⟨a, List.mem_cons_self _ _, rfl⟩
    | cons b t =>
      obtain ⟨r, hr, hre⟩ := ih (by simp)
      rw [gEnd_cons a (by simp)]
      by_cases hc : gEnd (b :: t) ≤ a.stop
      · exact ⟨a, List.mem_cons_self _ _, by omega⟩
      · exact ⟨r, List.mem_cons_of_mem _ hr, by omega⟩

theorem gStart_eq_of_subsets {g h : SamploGroup} (hne : g ≠ []) (hne2 : h ≠ [])
    (h1 : ∀ m ∈ g, m ∈ h) (h2 : ∀ m ∈ h, m ∈ g) : gStart g = gStart h := by
  obtain ⟨r, hr, hre⟩ := gStart_mem hne
  obtain ⟨s, hs, hse⟩ := gStart_mem hne2
  have ha := gStart_le (h1 r hr)
  have hb := gStart_le (h2 s hs)
  omega

theorem gEnd_eq_of_subsets {g h : SamploGroup} (hne : g ≠ []) (hne2 : h ≠ [])
    (h1 : ∀ m ∈ g, m ∈ h) (h2 : ∀ m ∈ h, m ∈ g) : gEnd g = gEnd h := by
  obtain ⟨r, hr, hre⟩ := gEnd_mem hne
  obtain ⟨s, hs, hse⟩ := gEnd_mem hne2
  have ha := gEnd_ge (h1 r hr)
  have hb := gEnd_ge (h2 s hs)
  omega

theorem gStart_perm {g h : SamploGroup} (hp : g.Perm h) : gStart g = gStart h := by
  cases g with
  | nil =>
    have : h = [] := hp.symm.eq_nil
    rw [this]
  | cons a g =>
    have hne2 : h ≠ [] := by
      intro hc
      subst hc
      exact absurd hp.eq_nil (by simp)
    exact gStart_eq_of_subsets (by simp) hne2 (fun m hm => hp.subset hm)
      (fun m hm => hp.symm.subset hm)

theorem gEnd_perm {g h : SamploGroup} (hp : g.Perm h) : gEnd g = gEnd h := by
  cases g with
  | nil =>
    have : h = [] := hp.symm.eq_nil
    rw [this]
  | cons a g =>
    have hne2 : h ≠ [] := by
      intro hc
      subst hc
      exact absurd hp.eq_nil (by simp)
    exact gEnd_eq_of_subsets (by simp) hne2 (fun m hm => hp.subset hm)
      (fun m hm => hp.symm.subset hm)

theorem gStart_append {g h : SamploGroup} (hg : g ≠ []) (hh : h ≠ []) :
    gStart (g ++ h) = min (gStart g) (gStart h) := by
  induction g with
  | nil => exact absurd rfl hg
  | cons a g ih =>
    cases g with
    | nil =>
      rw [List.singleton_append, gStart_cons a hh]
      rfl
    | cons b t =>
      have hne : (b :: t) ++ h ≠ [] := by simp
      rw [List.cons_append, gStart_cons a hne, ih (by simp), gStart_cons a (by simp)]
      omega

theorem gEnd_append {g h : SamploGroup} (hg : g ≠ []) (hh : h ≠ []) :
    gEnd (g ++ h) = max (gEnd g) (gEnd h) := by
  induction g with
  | nil => exact absurd rfl hg
  | cons a g ih =>
    cases g with
    | nil =>
      rw [List.singleton_append, gEnd_cons a hh]
      rfl
    | cons b t =>
      have hne : (b :: t) ++ h ≠ [] := by simp
      rw [List.cons_append, gEnd_cons a hne, ih (by simp), gEnd_cons a (by simp)]
      omega

theorem gStart_le_gEnd {g : SamploGroup} (hne : g ≠ []) (hv : ∀ m ∈ g, validR m) :
    gStart g ≤ gEnd g := by
  obtain ⟨r, hr, hre⟩ := gStart_mem hne
  have h1 := gEnd_ge hr
  have h2 := hv r hr
  unfold validR at h2
  omega

theorem gStart_sorted_head {a : SRange} {g : SamploGroup}
    (hs : List.Sorted startLE (a :: g)) : gStart (a :: g) = a.start := by
  have h1 : gStart (a :: g) ≤ a.start := gStart_le (List.mem_cons_self _ _)
  obtain ⟨r, hr, hre⟩ := gStart_mem (g := a :: g) (by simp)
  rw [List.mem_cons] at hr
  rcases hr with rfl | hr
  · omega
  · have := (List.rel_of_sorted_cons hs) r hr
    unfold startLE at this
    omega

-- ## Running maximum and chain lemmas

theorem foldMax_nil (e : Int) : foldMax e [] = e := rfl

theorem foldMax_cons (e : Int) (x : SRange) (g : SamploGroup) :
    foldMax e (x :: g) = foldMax (max e x.stop) g := rfl

theorem foldMax_max (a b : Int) (g : SamploGroup) :
    foldMax (max a b) g = max a (foldMax b g) := by
  induction g generalizing b with
  | nil => rfl
  | cons x g ih =>
    rw [foldMax_cons, foldMax_cons, max_assoc, ih]

theorem foldMax_eq_max_gEnd {g : SamploGroup} (hne : g ≠ []) (e : Int) :
    foldMax e g = max e (gEnd g) := by
  induction g generalizing e with
  | nil => exact absurd rfl hne
  | cons x g ih =>
    cases g with
    | nil =>
      rw [foldMax_cons, foldMax_nil]
      rfl
    | cons b t =>
      rw [foldMax_cons, ih (by simp), gEnd_cons x (by simp)]
      omega

theorem foldMax_head_eq_gEnd (a : SRange) (g : SamploGroup) :
    foldMax a.stop g = gEnd (a :: g) := by
  cases g with
  | nil => rfl
  | cons b t =>
    rw [foldMax_eq_max_gEnd (by simp), gEnd_cons a (by simp)]

theorem chainedFrom_snoc :
    ∀ (g : SamploGroup) (e : Int) (x : SRange), chainedFrom e g →
      (x.start ≤ e ∨ (g ≠ [] ∧ x.start ≤ gEnd g)) → chainedFrom e (g ++ [x]) := by
  intro g
  induction g with
  | nil =>
    intro e x _ hx
    rcases hx with hx | hx
    · exact ⟨hx, trivial⟩
    · exact absurd rfl hx.1
  | cons a t ih =>
    intro e x h hx
    obtain ⟨h1, h2⟩ := h
    refine ⟨h1, ih _ x h2 ?_⟩
    rcases hx with hx | ⟨_, hx⟩
    · left
      omega
    · cases t with
      | nil =>
        left
        have : gEnd [a] = a.stop := rfl
        omega
      | cons b t2 =>
        rw [gEnd_cons a (by simp)] at hx
        by_cases hc : x.start ≤ gEnd (b :: t2)
        · right
          exact ⟨by simp, hc⟩
        · left
          omega

theorem chained_snoc {g : SamploGroup} {x : SRange} (hne : g ≠ []) (hc : chained g)
    (hx : x.start ≤ gEnd g) : chained (g ++ [x]) := by
  cases g with
  | nil => exact absurd rfl hne
  | cons a t =>
    show chainedFrom a.stop (t ++ [x])
    refine chainedFrom_snoc t a.stop x hc ?_
    cases t with
    | nil =>
      left
      have : gEnd [a] = a.stop := rfl
      omega
    | cons b t2 =>
      rw [gEnd_cons a (by simp)] at hx
      by_cases hcc : x.start ≤ gEnd (b :: t2)
      · right
        exact ⟨by simp, hcc⟩
      · left
        omega

-- ## Covering lemmas

theorem chainedFrom_covers_aux (full : SamploGroup) :
    ∀ (g : SamploGroup) (e lo : Int), chainedFrom e g → (∀ m ∈ g, m ∈ full) →
      (∀ p : Int, 2 * lo ≤ p → p ≤ 2 * e → ∃ m ∈ full, 2 * m.start ≤ p ∧ p ≤ 2 * m.stop) →
      ∀ p : Int, 2 * lo ≤ p → p ≤ 2 * foldMax e g →
        ∃ m ∈ full, 2 * m.start ≤ p ∧ p ≤ 2 * m.stop := by
  intro g
  induction g with
  | nil =>
    intro e lo _ _ hbase p h1 h2
    rw [foldMax_nil] at h2
    exact hbase p h1 h2
  | cons x g ih =>
    intro e lo h hmem hbase p h1 h2
    obtain ⟨hx, hcf⟩ := h
    rw [foldMax_cons] at h2
    refine ih (max e x.stop) lo hcf (fun m hm => hmem m (List.mem_cons_of_mem _ hm)) ?_ p h1 h2
    intro q hq1 hq2
    by_cases hqe : q ≤ 2 * e
    · exact hbase q hq1 hqe
    · refine ⟨x, hmem x (List.mem_cons_self _ _), by omega, by omega⟩

/-- A sorted, valid, chained member list covers its aggregate bounds. -/
theorem chained_covers {g : SamploGroup} (hne : g ≠ []) (hs : List.Sorted startLE g)
    (hv : ∀ m ∈ g, validR m) (hc : chained g) : covers g := by
  cases g with
  | nil => exact absurd rfl hne
  | cons a g =>
    intro p h1 h2
    rw [gStart_sorted_head hs] at h1
    rw [← foldMax_head_eq_gEnd] at h2
    refine chainedFrom_covers_aux (a :: g) g a.stop a.start hc
      (fun m hm => List.mem_cons_of_mem _ hm) ?_ p h1 h2
    intro q hq1 hq2
    exact ⟨a, List.mem_cons_self _ _, hq1, hq2⟩

theorem covers_perm {g h : SamploGroup} (hp : g.Perm h) (hc : covers g) : covers h := by
  intro p h1 h2
  rw [← gStart_perm hp] at h1
  rw [← gEnd_perm hp] at h2
  obtain ⟨m, hm, hm1, hm2⟩ := hc p h1 h2
  exact ⟨m, hp.subset hm, hm1, hm2⟩

/-- Two covering groups whose bounds overlap cover their joint bounds. -/
theorem covers_append {g h : SamploGroup} (hg : g ≠ []) (hh : h ≠ [])
    (hcg : covers g) (hch : covers h)
    (ho1 : gStart g ≤ gEnd h) (ho2 : gStart h ≤ gEnd g)
    (hvg : gStart g ≤ gEnd g) (hvh : gStart h ≤ gEnd h) : covers (g ++ h) := by
  intro p h1 h2
  rw [gStart_append hg hh] at h1
  rw [gEnd_append hg hh] at h2
  by_cases hcase : 2 * gStart g ≤ p ∧ p ≤ 2 * gEnd g
  · obtain ⟨m, hm, hm1, hm2⟩ := hcg p hcase.1 hcase.2
    exact ⟨m, List.mem_append_left _ hm, hm1, hm2⟩
  · have hcase2 : 2 * gStart h ≤ p ∧ p ≤ 2 * gEnd h := by omega
    obtain ⟨m, hm, hm1, hm2⟩ := hch p hcase2.1 hcase2.2
    exact ⟨m, List.mem_append_right _ hm, hm1, hm2⟩

theorem covers_chainedFrom_aux (s : SamploGroup)
    (hcov : covers s) (hv : ∀ m ∈ s, validR m) :
    ∀ (g3 : SamploGroup) (e : Int), (∀ m ∈ g3, m ∈ s) → List.Sorted startLE g3 →
      (∀ m ∈ s, m.stop ≤ e ∨ m ∈ g3) → gStart s ≤ e → chainedFrom e g3 := by
  intro g3
  induction g3 with
  | nil =>
    intro e _ _ _ _
    trivial
  | cons x g4 ih =>
    intro e hmem hsort hsplit hbase
    have hxe : x.start ≤ e := by
      by_contra hgt
      push_neg at hgt
      have hxs : x ∈ s := hmem x (List.mem_cons_self _ _)
      have hvx := hv x hxs
      unfold validR at hvx
      have hgends := gEnd_ge hxs
      obtain ⟨m, hm, hm1, hm2⟩ := hcov (2 * e + 1) (by omega) (by omega)
      rcases hsplit m hm with hms | hmg
      · omega
      · rw [List.mem_cons] at hmg
        rcases hmg with rfl | hmg
        · omega
        · have := (List.rel_of_sorted_cons hsort) m hmg
          unfold startLE at this
          omega
    refine ⟨hxe, ih (max e x.stop) (fun m hm => hmem m (List.mem_cons_of_mem _ hm))
      hsort.of_cons ?_ (by omega)⟩
    intro m hm
    rcases hsplit m hm with hms | hmg
    · left
      omega
    · rw [List.mem_cons] at hmg
      rcases hmg with rfl | hmg
      · left
        omega
      · right
        exact hmg

/-- A sorted, valid member list that covers its bounds is chained. -/
theorem covers_chained {g : SamploGroup} (hcov : covers g) (hs : List.Sorted startLE g)
    (hv : ∀ m ∈ g, validR m) : chained g := by
  cases g with
  | nil => trivial
  | cons a g =>
    show chainedFrom a.stop g
    have hva := hv a (List.mem_cons_self _ _)
    unfold validR at hva
    refine covers_chainedFrom_aux (a :: g) hcov hv g a.stop
      (fun m hm => List.mem_cons_of_mem _ hm) hs.of_cons ?_ ?_
    · intro m hm
      rw [List.mem_cons] at hm
      rcases hm with rfl | hm
      · exact Or.inl (le_refl _)
      · exact Or.inr hm
    · rw [gStart_sorted_head hs]
      exact hva

-- ## Connectivity lemmas

theorem overlap_symm {a b : SRange} (h : overlap a b) : overlap b a := ⟨h.2, h.1⟩

theorem chained_conn_aux (s : SamploGroup) (a : SRange) :
    ∀ (g3 : SamploGroup) (e : Int) (w : SRange), w ∈ s → connIn s a w → w.stop = e →
      (∀ m ∈ g3, m ∈ s) → (∀ m ∈ g3, validR m) → (∀ m ∈ g3, w.start ≤ m.start) →
      List.Sorted startLE g3 → chainedFrom e g3 →
      ∀ x ∈ g3, connIn s a x := by
  intro g3
  induction g3 with
  | nil =>
    intro e w _ _ _ _ _ _ _ _ x hx
    simp at hx
  | cons y g4 ih =>
    intro e w hws hconnw hwe hmem hv hle hsort hcf x hx
    obtain ⟨hy1, hcf2⟩ := hcf
    have hys : y ∈ s := hmem y (List.mem_cons_self _ _)
    have hvy := hv y (List.mem_cons_self _ _)
    unfold validR at hvy
    have hover : overlap w y := by
      refine ⟨?_, by omega⟩
      have := hle y (List.mem_cons_self _ _)
      omega
    have hconny : connIn s a y := hconnw.tail ⟨hws, hys, hover⟩
    rw [List.mem_cons] at hx
    rcases hx with rfl | hx
    · exact hconny
    · by_cases hcase : e ≤ y.stop
      · have hmax : max e y.stop = y.stop := by omega
        rw [hmax] at hcf2
        refine ih _ y hys hconny rfl (fun m hm => hmem m (List.mem_cons_of_mem _ hm))
          (fun m hm => hv m (List.mem_cons_of_mem _ hm)) ?_ hsort.of_cons hcf2 x hx
        intro m hm
        have := (List.rel_of_sorted_cons hsort) m hm
        unfold startLE at this
        omega
      · have hmax : max e y.stop = e := by omega
        rw [hmax] at hcf2
        refine ih _ w hws hconnw hwe (fun m hm => hmem m (List.mem_cons_of_mem _ hm))
          (fun m hm => hv m (List.mem_cons_of_mem _ hm)) ?_ hsort.of_cons hcf2 x hx
        intro m hm
        exact hle m (List.mem_cons_of_mem _ hm)

/-- A sorted, valid, chained member list is a single overlap-connected
component. -/
theorem chained_conn {g : SamploGroup} (hs : List.Sorted startLE g)
    (hv : ∀ m ∈ g, validR m) (hc : chained g) : conn g := by
  cases g with
  | nil =>
    intro x hx
    simp at hx
  | cons a g2 =>
    have hall : ∀ x ∈ a :: g2, connIn (a :: g2) a x := by
      intro x hx
      rw [List.mem_cons] at hx
      rcases hx with rfl | hx
      · exact Relation.ReflTransGen.refl
      · exact chained_conn_aux (a :: g2) a g2 a.stop a (List.mem_cons_self _ _)
          Relation.ReflTransGen.refl rfl (fun m hm => List.mem_cons_of_mem _ hm)
          (fun m hm => hv m (List.mem_cons_of_mem _ hm))
          (fun m hm => by
            have := (List.rel_of_sorted_cons hs) m hm
            unfold startLE at this
            omega)
          hs.of_cons hc x hx
    have hsymm : Symmetric fun u v => u ∈ (a :: g2) ∧ v ∈ (a :: g2) ∧ overlap u v :=
      fun u v ⟨h1, h2, h3⟩ => ⟨h2, h1, overlap_symm h3⟩
    intro x hx y hy
    exact ((Relation.ReflTransGen.symmetric hsymm) (hall x hx)).trans (hall y hy)

-- ## Intersection test characterizations

theorem intersect_eq_true_iff (g : SamploGroup) (r : SRange) :
    intersect g r = true ↔ (gStart g ≤ r.stop ∧ r.start ≤ gEnd g) := by
  unfold intersect
  split_ifs with h1 h2 <;> simp <;> omega

theorem intersect_eq_false_iff (g : SamploGroup) (r : SRange) :
    intersect g r = false ↔ (r.stop < gStart g ∨ gEnd g < r.start) := by
  unfold intersect
  split_ifs with h1 h2 <;> simp <;> omega

theorem intersectGG_eq_true_iff (g h : SamploGroup) :
    intersectGG g h = true ↔ (gStart g ≤ gEnd h ∧ gStart h ≤ gEnd g) := by
  unfold intersectGG
  split_ifs with h1 h2 <;> simp <;> omega

theorem intersectGG_eq_false_iff (g h : SamploGroup) :
    intersectGG g h = false ↔ Disj g h := by
  unfold intersectGG Disj
  split_ifs with h1 h2 <;> simp <;> omega

theorem Disj_symm {g h : SamploGroup} (hd : Disj g h) : Disj h g := hd.symm

theorem intersectGG_singleton (g : SamploGroup) (r : SRange) :
    intersectGG g [r] = intersect g r := rfl

-- ## Tracked range list lemmas

theorem joinG_append (a b : Groups) : joinG (a ++ b) = joinG a ++ joinG b := by
  induction a with
  | nil => rfl
  | cons g a ih =>
    show g ++ joinG (a ++ b) = (g ++ joinG a) ++ joinG b
    rw [ih, List.append_assoc]

theorem mem_joinG {s : Groups} {r : SRange} : r ∈ joinG s ↔ ∃ g ∈ s, r ∈ g := by
  induction s with
  | nil => simp [joinG]
  | cons g s ih =>
    show r ∈ g ++ joinG s ↔ _
    rw [List.mem_append, ih]
    constructor
    · rintro (h | ⟨g2, hg2, hr⟩)
      · exact ⟨g, List.mem_cons_self _ _, h⟩
      · exact ⟨g2, List.mem_cons_of_mem _ hg2, hr⟩
    · rintro ⟨g2, hg2, hr⟩
      rw [List.mem_cons] at hg2
      rcases hg2 with rfl | hg2
      · exact Or.inl hr
      · exact Or.inr ⟨g2, hg2, hr⟩

-- ## insert_in_groups characterization

theorem insertInGroupsRG_cons_pos {g : SamploGroup} {r : SRange}
    (h : intersect g r = true) (gs : Groups) :
    insertInGroupsRG (g :: gs) r = ((g ++ [r]) :: gs, g ++ [r]) := by
  unfold insertInGroupsRG
  rw [if_pos h]

theorem insertInGroupsRG_cons_neg {g : SamploGroup} {r : SRange}
    (h : intersect g r = false) (gs : Groups) :
    insertInGroupsRG (g :: gs) r
      = (g :: (insertInGroupsRG gs r).1, (insertInGroupsRG gs r).2) := by
  simp only [insertInGroupsRG]
  rw [if_neg (by simp [h])]

/-- The full case analysis of insert_in_groups: either the range is
appended to the first group whose bounds intersect it, or no group bounds
intersect it and a fresh singleton group is appended at the end. -/
theorem insertInGroupsRG_spec (gs : Groups) (r : SRange) :
    (∃ pre g post, gs = pre ++ g :: post
      ∧ (insertInGroupsRG gs r).1 = pre ++ (g ++ [r]) :: post
      ∧ (insertInGroupsRG gs r).2 = g ++ [r]
      ∧ (∀ h ∈ pre, intersect h r = false)
      ∧ intersect g r = true)
    ∨ ((∀ h ∈ gs, intersect h r = false)
      ∧ (insertInGroupsRG gs r).1 = gs ++ [[r]]
      ∧ (insertInGroupsRG gs r).2 = [r]) := by
  induction gs with
  | nil =>
    right
    refine ⟨by simp, rfl, rfl⟩
  | cons g gs ih =>
    by_cases h : intersect g r = true
    · left
      refine ⟨[], g, gs, rfl, ?_, ?_, by simp, h⟩
      · rw [insertInGroupsRG_cons_pos h]
        rfl
      · rw [insertInGroupsRG_cons_pos h]

    · have hf : intersect g r = false := by
        cases hc : intersect g r
        · rfl
        · exact absurd hc h
      rcases ih with ⟨pre, g0, post, hgs, h1, h2, hpre, hint⟩ | ⟨hall, h1, h2⟩
      · left
        refine ⟨g :: pre, g0, post, by rw [hgs]; rfl, ?_, ?_, ?_, hint⟩
        · rw [insertInGroupsRG_cons_neg hf, h1]
          rfl
        · rw [insertInGroupsRG_cons_neg hf, h2]
        · intro h' hh
          rw [List.mem_cons] at hh
          rcases hh with rfl | hh
          · exact hf
          · exact hpre h' hh
      · right
        refine ⟨?_, ?_, ?_⟩
        · intro h' hh
          rw [List.mem_cons] at hh
          rcases hh with rfl | hh
          · exact hf
          · exact hall h' hh
        · rw [insertInGroupsRG_cons_neg hf, h1]
          rfl
        · rw [insertInGroupsRG_cons_neg hf, h2]

-- ## split lemmas

/-- One step of the sorted reinsertion fold: inserting a range whose start
is largest so far preserves the split invariant, and the tracked ranges
grow by the inserted range at the end. -/
theorem insertInGroups_sorted_step {acc : Groups} {x : SRange}
    (hacc : SplitAcc acc) (hle : ∀ g ∈ acc, ∀ m ∈ g, m.start ≤ x.start) (hvx : validR x) :
    SplitAcc (insertInGroups acc x)
    ∧ joinG (insertInGroups acc x) = joinG acc ++ [x] := by
  have hstart : ∀ g ∈ acc, gStart g ≤ x.start := by
    intro g hg
    obtain ⟨m, hm, hme⟩ := gStart_mem (hacc.ok g hg).ne
    have := hle g hg m hm
    omega
  rcases insertInGroupsRG_spec acc x with
    ⟨pre, g, post, hgs, h1, h2, hpre, hint⟩ | ⟨hall, h1, h2⟩
  · -- the range lands in the group g; g must be the last group
    have hgmem : g ∈ acc := by
      rw [hgs]
      exact List.mem_append_right _ (List.mem_cons_self _ _)
    have hgok := hacc.ok g hgmem
    have hpost : post = [] := by
      cases post with
      | nil => rfl
      | cons h t =>
        exfalso
        have hmem : h ∈ acc := by
          rw [hgs]
          exact List.mem_append_right _ (List.mem_cons_of_mem _ (List.mem_cons_self _ _))
        have hrel : gEnd g < gStart h := by
          have hp := hacc.ordered
          rw [hgs] at hp
          rw [List.pairwise_append] at hp
          have := hp.2.1
          rw [List.pairwise_cons] at this
          exact this.1 h (List.mem_cons_self _ _)
        have hx1 := hstart h hmem
        rw [intersect_eq_true_iff] at hint
        omega
    subst hpost
    rw [intersect_eq_true_iff] at hint
    have hxg : ∀ m ∈ g, m.start ≤ x.start := hle g hgmem
    have hgS : gStart (g ++ [x]) = gStart g := by
      rw [gStart_append hgok.ne (by simp)]
      have := hstart g hgmem
      have : gStart [x] = x.start := rfl
      omega
    have hok : GrpOk (g ++ [x]) := by
      refine ⟨by simp, ?_, ?_, ?_⟩
      · rw [List.Sorted, List.pairwise_append]
        refine ⟨hgok.sorted, by simp, ?_⟩
        intro a ha b hb
        rw [List.mem_singleton] at hb
        subst hb
        exact hxg a ha
      · exact chained_snoc hgok.ne hgok.chain hint.2
      · intro m hm
        rw [List.mem_append, List.mem_singleton] at hm
        rcases hm with hm | rfl
        · exact hgok.valid m hm
        · exact hvx
    constructor
    · refine ⟨?_, ?_⟩
      · intro g2 hg2
        rw [show insertInGroups acc x = pre ++ [g ++ [x]] from h1] at hg2
        rw [List.mem_append, List.mem_singleton] at hg2
        rcases hg2 with hg2 | rfl
        · exact hacc.ok g2 (by rw [hgs]; exact List.mem_append_left _ hg2)
        · exact hok
      · rw [show insertInGroups acc x = pre ++ [g ++ [x]] from h1]
        rw [List.pairwise_append]
        refine ⟨?_, by simp, ?_⟩
        · have hp := hacc.ordered
          rw [hgs, List.pairwise_append] at hp
          exact hp.1
        · intro a ha b hb
          rw [List.mem_singleton] at hb
          subst hb
          have hp := hacc.ordered
          rw [hgs, List.pairwise_append] at hp
          have := hp.2.2 a ha g (List.mem_cons_self _ _)
          omega
    · show joinG (insertInGroupsRG acc x).1 = _
      rw [h1, hgs, joinG_append, joinG_append]
      show joinG pre ++ ((g ++ [x]) ++ joinG []) = (joinG pre ++ (g ++ joinG [])) ++ [x]
      simp [joinG]
  · -- no group intersects; a fresh singleton group is appended
    have hok : GrpOk [x] := ⟨by simp, by simp, trivial, by
      intro m hm
      rw [List.mem_singleton] at hm
      subst hm
      exact hvx⟩
    constructor
    · refine ⟨?_, ?_⟩
      · intro g2 hg2
        rw [show insertInGroups acc x = acc ++ [[x]] from h1] at hg2
        rw [List.mem_append, List.mem_singleton] at hg2
        rcases hg2 with hg2 | rfl
        · exact hacc.ok g2 hg2
        · exact hok
      · rw [show insertInGroups acc x = acc ++ [[x]] from h1]
        rw [List.pairwise_append]
        refine ⟨hacc.ordered, by simp, ?_⟩
        intro a ha b hb
        rw [List.mem_singleton] at hb
        subst hb
        have hf := hall a ha
        rw [intersect_eq_false_iff] at hf
        have hs1 := hstart a ha
        have hva := gStart_le_gEnd (hacc.ok a ha).ne (hacc.ok a ha).valid
        have hgx : gStart [x] = x.start := rfl
        unfold validR at hvx
        omega
    · show joinG (insertInGroupsRG acc x).1 = _
      rw [h1, joinG_append]
      simp [joinG]

/-- The reinsertion fold of SamploGroup.split maintains the invariant. -/
theorem splitG_fold :
    ∀ (rs : List SRange) (acc : Groups), SplitAcc acc →
      (∀ x ∈ rs, ∀ g ∈ acc, ∀ m ∈ g, m.start ≤ x.start) →
      List.Sorted startLE rs → (∀ x ∈ rs, validR x) →
      SplitAcc (rs.foldl insertInGroups acc)
      ∧ joinG (rs.foldl insertInGroups acc) = joinG acc ++ rs := by
  intro rs
  induction rs with
  | nil =>
    intro acc hacc _ _ _
    exact ⟨hacc, by simp⟩
  | cons x rs ih =>
    intro acc hacc hle hsort hv
    obtain ⟨hacc', hjoin'⟩ := insertInGroups_sorted_step hacc
      (fun g hg m hm => hle x (List.mem_cons_self _ _) g hg m hm)
      (hv x (List.mem_cons_self _ _))
    have hle' : ∀ y ∈ rs, ∀ g ∈ insertInGroups acc x, ∀ m ∈ g, m.start ≤ y.start := by
      intro y hy g hg m hm
      have hmj : m ∈ joinG (insertInGroups acc x) := mem_joinG.mpr ⟨g, hg, hm⟩
      rw [hjoin', List.mem_append, List.mem_singleton] at hmj
      rcases hmj with hmj | rfl
      · obtain ⟨g0, hg0, hm0⟩ := mem_joinG.mp hmj
        exact hle y (List.mem_cons_of_mem _ hy) g0 hg0 m hm0
      · have := (List.rel_of_sorted_cons hsort) y hy
        unfold startLE at this
        omega
    obtain ⟨hfin, hjoinfin⟩ := ih (insertInGroups acc x) hacc' hle' hsort.of_cons
      (fun y hy => hv y (List.mem_cons_of_mem _ hy))
    refine ⟨hfin, ?_⟩
    show joinG (rs.foldl insertInGroups (insertInGroups acc x)) = _
    rw [hjoinfin, hjoin', List.append_assoc]
    rfl

/-- SamploGroup.split on a sorted valid member list: the resulting groups
satisfy the split invariant and together hold exactly the input ranges. -/
theorem splitG_spec {rs : SamploGroup} (hs : List.Sorted startLE rs)
    (hv : ∀ x ∈ rs, validR x) :
    SplitAcc (splitG rs) ∧ joinG (splitG rs) = rs := by
  have := splitG_fold rs [] ⟨by simp, by simp⟩ (by simp) hs hv
  simpa [splitG, joinG] using this

theorem splitAcc_pairwise_disj {acc : Groups} (h : SplitAcc acc) : acc.Pairwise Disj :=
  h.ordered.imp fun hab => Or.inl hab

-- ## split singleton identification

theorem insertInGroups_length_mono (acc : Groups) (x : SRange) :
    acc.length ≤ (insertInGroups acc x).length := by
  rcases insertInGroupsRG_spec acc x with ⟨pre, g, post, hgs, h1, _, _, _⟩ | ⟨_, h1, _⟩
  · rw [show insertInGroups acc x = pre ++ (g ++ [x]) :: post from h1, hgs]
    simp
  · rw [show insertInGroups acc x = acc ++ [[x]] from h1]
    simp

theorem foldl_insertInGroups_length_mono :
    ∀ (rs : List SRange) (acc : Groups), acc.length ≤ (rs.foldl insertInGroups acc).length := by
  intro rs
  induction rs with
  | nil => intro acc; exact le_refl _
  | cons x rs ih =>
    intro acc
    exact (insertInGroups_length_mono acc x).trans (ih (insertInGroups acc x))

theorem foldl_insert_single :
    ∀ (rs : List SRange) (pre : SamploGroup),
      (rs.foldl insertInGroups [pre]).length ≤ 1 →
      rs.foldl insertInGroups [pre] = [pre ++ rs] := by
  intro rs
  induction rs with
  | nil =>
    intro pre _
    simp
  | cons x rs ih =>
    intro pre hlen
    by_cases h : intersect pre x = true
    · have hstep : insertInGroups [pre] x = [pre ++ [x]] := by
        unfold insertInGroups
        rw [insertInGroupsRG_cons_pos h]
      have hfold : (x :: rs).foldl insertInGroups [pre]
          = rs.foldl insertInGroups [pre ++ [x]] := by
        show rs.foldl insertInGroups (insertInGroups [pre] x) = _
        rw [hstep]
      rw [hfold] at hlen ⊢
      rw [ih (pre ++ [x]) hlen]
      simp
    · exfalso
      have hf : intersect pre x = false := by
        cases hc : intersect pre x
        · rfl
        · exact absurd hc h
      have hstep : insertInGroups [pre] x = [pre, [x]] := by
        unfold insertInGroups
        rw [insertInGroupsRG_cons_neg hf]
        rfl
      have hfold : (x :: rs).foldl insertInGroups [pre]
          = rs.foldl insertInGroups [pre, [x]] := by
        show rs.foldl insertInGroups (insertInGroups [pre] x) = _
        rw [hstep]
      rw [hfold] at hlen
      have hmono := foldl_insertInGroups_length_mono rs [pre, [x]]
      simp at hmono
      omega

/-- When split returns a single group, that group is exactly the input
member list unchanged. -/
theorem splitG_singleton {rs : SamploGroup} (hne : rs ≠ [])
    (h : (splitG rs).length ≤ 1) : splitG rs = [rs] := by
  cases rs with
  | nil => exact absurd rfl hne
  | cons x rs =>
    have h2 : splitG (x :: rs) = rs.foldl insertInGroups [[x]] := rfl
    rw [h2] at h ⊢
    have h3 : [x] ++ rs = x :: rs := rfl
    rw [← h3]
    exact foldl_insert_single rs [x] h

-- ## Identity and duplication helpers

theorem idsOf_cons (g : SamploGroup) (s : Groups) :
    idsOf (g :: s) = g.map SRange.id ++ idsOf s := by
  unfold idsOf
  show (g ++ joinG s).map SRange.id = _
  rw [List.map_append]

theorem ids_nodup_of_perm {s t : Groups} (h : (joinG s).Perm (joinG t))
    (hs : (idsOf s).Nodup) : (idsOf t).Nodup :=
  (h.map SRange.id).nodup hs

/-- Distinct tracked identities make the group list itself duplicate free,
which models distinct group objects. -/
theorem groups_nodup {s : Groups} (hne : ∀ g ∈ s, g ≠ []) (hnd : (idsOf s).Nodup) :
    s.Nodup := by
  induction s with
  | nil => exact List.nodup_nil
  | cons g s ih =>
    rw [idsOf_cons, List.nodup_append] at hnd
    rw [List.nodup_cons]
    constructor
    · intro hg
      have hgne := hne g (List.mem_cons_self _ _)
      cases g with
      | nil => exact hgne rfl
      | cons m g2 =>
        have h1 : m.id ∈ (m :: g2).map SRange.id := List.mem_map_of_mem _ (by simp)
        have h2 : m.id ∈ idsOf s := by
          unfold idsOf
          exact List.mem_map_of_mem _ (mem_joinG.mpr ⟨m :: g2, hg, by simp⟩)
        exact hnd.2.2 h1 h2
    · exact ih (fun g2 hg2 => hne g2 (List.mem_cons_of_mem _ hg2)) hnd.2.1

theorem grpok_bounds {g : SamploGroup} (h : GrpOk g) : gStart g ≤ gEnd g :=
  gStart_le_gEnd h.ne h.valid

theorem rgok_bounds {rg : SamploGroup} (h : RgOk rg) : gStart rg ≤ gEnd rg :=
  gStart_le_gEnd h.ne h.valid

theorem grpok_covers {g : SamploGroup} (h : GrpOk g) : covers g :=
  chained_covers h.ne h.sorted h.valid h.chain

/-- A group absorbed into another: the bounds separation of a third group
from both parts carries to the concatenation when the parts overlap. -/
theorem Disj_append {h o rg : SamploGroup} (hno : o ≠ []) (hnrg : rg ≠ [])
    (hd1 : Disj h o) (hd2 : Disj h rg)
    (hov1 : gStart o ≤ gEnd rg) (hov2 : gStart rg ≤ gEnd o)
    (hvh : gStart h ≤ gEnd h) : Disj h (o ++ rg) := by
  unfold Disj at *
  rw [gStart_append hno hnrg, gEnd_append hno hnrg]
  omega

-- ## Merge loop computation lemmas

theorem mergeLoop_cons_self {g rg : SamploGroup} (h : g = rg) (snap groups : Groups) :
    mergeLoop (g :: snap) groups rg = mergeLoop snap groups rg := by
  simp only [mergeLoop]
  rw [if_pos h]

theorem mergeLoop_cons_merge {g rg : SamploGroup} (h1 : g ≠ rg)
    (h2 : intersectGG g rg = true) (snap groups : Groups) :
    mergeLoop (g :: snap) groups rg
      = mergeLoop snap ((groups.map fun h => if h = g then g ++ rg else h).erase rg)
          (g ++ rg) := by
  simp only [mergeLoop]
  rw [if_neg h1, if_pos h2]

theorem mergeLoop_cons_skip {g rg : SamploGroup} (h1 : g ≠ rg)
    (h2 : intersectGG g rg = false) (snap groups : Groups) :
    mergeLoop (g :: snap) groups rg = mergeLoop snap groups rg := by
  simp only [mergeLoop]
  rw [if_neg h1, if_neg (by simp [h2])]

theorem mergeLoop_skip :
    ∀ (snap groups : Groups) (rg : SamploGroup),
      (∀ g ∈ snap, g = rg ∨ intersectGG g rg = false) →
      mergeLoop snap groups rg = (groups, rg) := by
  intro snap
  induction snap with
  | nil => intro groups rg _; rfl
  | cons g snap ih =>
    intro groups rg h
    rcases h g (List.mem_cons_self _ _) with hg | hg
    · rw [mergeLoop_cons_self hg]
      exact ih groups rg (fun g2 hg2 => h g2 (List.mem_cons_of_mem _ hg2))
    · by_cases heq : g = rg
      · rw [mergeLoop_cons_self heq]
        exact ih groups rg (fun g2 hg2 => h g2 (List.mem_cons_of_mem _ hg2))
      · rw [mergeLoop_cons_skip heq hg]
        exact ih groups rg (fun g2 hg2 => h g2 (List.mem_cons_of_mem _ hg2))

theorem map_keep {l : Groups} {o merged : SamploGroup} (h : o ∉ l) :
    (l.map fun h2 => if h2 = o then merged else h2) = l := by
  have : ∀ a ∈ l, (fun h2 => if h2 = o then merged else h2) a = id a := by
    intro a ha
    have : a ≠ o := fun hc => h (hc ▸ ha)
    simp [this]
  rw [List.map_congr_left this, List.map_id]

theorem joinG_cons (g : SamploGroup) (s : Groups) : joinG (g :: s) = g ++ joinG s := rfl

theorem not_dup_mem {l1 l2 : Groups} {a : SamploGroup} (hnd : (l1 ++ l2).Nodup)
    (h2 : a ∈ l2) : a ∉ l1 := by
  intro h1
  rw [List.nodup_append] at hnd
  exact hnd.2.2 h1 h2

theorem nodup_middle_facts {A C B2 : Groups} {rg o : SamploGroup}
    (hnd : (A ++ rg :: (C ++ o :: B2)).Nodup) :
    o ∉ A ∧ o ∉ C ∧ o ∉ B2 ∧ rg ≠ o ∧ rg ∉ A ∧ rg ∉ C ∧ rg ∉ B2 := by
  have htail : (rg :: (C ++ o :: B2)).Nodup := (List.nodup_append.mp hnd).2.1
  rw [List.nodup_cons] at htail
  obtain ⟨hrg, htail2⟩ := htail
  have hrgC : rg ∉ C := fun hc => hrg (List.mem_append_left _ hc)
  have hrgB2 : rg ∉ B2 := fun hc =>
    hrg (List.mem_append_right _ (List.mem_cons_of_mem _ hc))
  have hrgo : rg ≠ o := fun hc =>
    hrg (hc ▸ List.mem_append_right _ (List.mem_cons_self _ _))
  have hoC : o ∉ C := not_dup_mem htail2 (List.mem_cons_self _ _)
  have hoB2 : o ∉ B2 := by
    have := (List.nodup_append.mp htail2).2.1
    rw [List.nodup_cons] at this
    exact this.1
  have hoA : o ∉ A := not_dup_mem hnd
    (List.mem_cons_of_mem _ (List.mem_append_right _ (List.mem_cons_self _ _)))
  have hrgA : rg ∉ A := not_dup_mem hnd (List.mem_cons_self _ _)
  exact ⟨hoA, hoC, hoB2, hrgo, hrgA, hrgC, hrgB2⟩

/-- The tracked ranges are preserved, up to order, when a group absorbs
the render group and the render group is removed from the list. -/
theorem joinG_merge_perm (A C B2 : Groups) (rg o : SamploGroup) :
    (joinG ((A ++ C) ++ (o ++ rg) :: B2)).Perm (joinG (A ++ rg :: (C ++ o :: B2))) := by
  rw [List.perm_iff_count]
  intro a
  simp only [joinG_append, joinG_cons, List.count_append]
  omega

/-- The merge loop of move_through_groups, started after the snapshot
entries up to and including the render group have been processed: every
remaining snapshot group that intersects the growing render group absorbs
it in turn. The groups A before the render group position and the already
skipped groups C do not intersect it. The loop ends with a render group
that no surviving group intersects, and the tracked ranges unchanged up to
order. -/
theorem mergeLoop_spec :
    ∀ (B A C : Groups) (rg : SamploGroup),
      (∀ h ∈ A ++ C, intersectGG h rg = false) →
      (∀ h ∈ A ++ C ++ B, GrpOk h) →
      ((A ++ C ++ B).Pairwise Disj) →
      RgOk rg →
      (idsOf (A ++ rg :: (C ++ B))).Nodup →
      ∃ X Y rg2,
        mergeLoop B (A ++ rg :: (C ++ B)) rg = (X ++ rg2 :: Y, rg2)
        ∧ (X ++ Y).Sublist (A ++ C ++ B)
        ∧ (∀ h ∈ X ++ Y, intersectGG h rg2 = false)
        ∧ RgOk rg2
        ∧ (joinG (X ++ rg2 :: Y)).Perm (joinG (A ++ rg :: (C ++ B)))
        ∧ (∀ m ∈ rg, m ∈ rg2) := by
  intro B
  induction B with
  | nil =>
    intro A C rg h1 h2 h3 hrg hnd
    refine ⟨A, C, rg, by simp [mergeLoop], by simp, h1, hrg, by simp, fun m hm => hm⟩
  | cons o B2 ih =>
    intro A C rg h1 h2 h3 hrg hnd
    have ho_ok : GrpOk o := h2 o (by
      rw [List.mem_append]
      right
      exact List.mem_cons_self _ _)
    have hne_all : ∀ g ∈ A ++ rg :: (C ++ o :: B2), g ≠ [] := by
      intro g hg
      rw [List.mem_append, List.mem_cons] at hg
      rcases hg with hg | rfl | hg
      · exact (h2 g (List.mem_append_left _ (List.mem_append_left _ hg))).ne
      · exact hrg.ne
      · rw [List.mem_append, List.mem_cons] at hg
        rcases hg with hg | rfl | hg
        · exact (h2 g (List.mem_append_left _ (List.mem_append_right _ hg))).ne
        · exact ho_ok.ne
        · exact (h2 g (List.mem_append_right _ (List.mem_cons_of_mem _ hg))).ne
    have hvals : (A ++ rg :: (C ++ o :: B2)).Nodup := groups_nodup hne_all hnd
    obtain ⟨hoA, hoC, hoB2, hrgo, hrgA, hrgC, hrgB2⟩ := nodup_middle_facts hvals
    have ho_ne_rg : ¬ (o = rg) := fun hc => hrgo hc.symm
    by_cases hGG : intersectGG o rg = true
    · -- the iterated group absorbs the render group
      have hov := (intersectGG_eq_true_iff o rg).mp hGG
      have hmap : ((A ++ rg :: (C ++ o :: B2)).map fun h => if h = o then o ++ rg else h)
          = A ++ rg :: (C ++ (o ++ rg) :: B2) := by
        rw [List.map_append, map_keep hoA, List.map_cons, if_neg hrgo, List.map_append,
          map_keep hoC, List.map_cons, if_pos rfl, map_keep hoB2]
      have herase : (A ++ rg :: (C ++ (o ++ rg) :: B2)).erase rg
          = A ++ (C ++ (o ++ rg) :: B2) := by
        rw [List.erase_append_right _ hrgA, List.erase_cons_head]
      have hshape : A ++ (C ++ (o ++ rg) :: B2) = (A ++ C) ++ (o ++ rg) :: ([] ++ B2) := by
        simp
      have hmerged_ne : o ++ rg ≠ [] := fun hc => ho_ok.ne (List.append_eq_nil.mp hc).1
      have hrg2 : RgOk (o ++ rg) := by
        refine ⟨hmerged_ne, ?_, ?_⟩
        · intro m hm
          rw [List.mem_append] at hm
          rcases hm with hm | hm
          · exact ho_ok.valid m hm
          · exact hrg.valid m hm
        · exact covers_append ho_ok.ne hrg.ne (grpok_covers ho_ok) hrg.cov
            hov.1 hov.2 (grpok_bounds ho_ok) (rgok_bounds hrg)
      have hpair := h3
      rw [List.pairwise_append] at hpair
      have h1new : ∀ h ∈ (A ++ C) ++ [], intersectGG h (o ++ rg) = false := by
        intro h hh
        rw [List.append_nil] at hh
        have hd2 : Disj h rg := (intersectGG_eq_false_iff h rg).mp (h1 h hh)
        have hd1 : Disj h o := hpair.2.2 h hh o (List.mem_cons_self _ _)
        have hvh : gStart h ≤ gEnd h := grpok_bounds (h2 h (List.mem_append_left _ hh))
        rw [intersectGG_eq_false_iff]
        exact Disj_append ho_ok.ne hrg.ne hd1 hd2 hov.1 hov.2 hvh
      have h2new : ∀ h ∈ (A ++ C) ++ [] ++ B2, GrpOk h := by
        intro h hh
        rcases List.mem_append.mp hh with hh2 | hh2
        · rcases List.mem_append.mp hh2 with hh3 | hh3
          · exact h2 h (List.mem_append_left _ hh3)
          · simp at hh3
        · exact h2 h (List.mem_append_right _ (List.mem_cons_of_mem _ hh2))
      have h3new : ((A ++ C) ++ [] ++ B2).Pairwise Disj := by
        have hsubl : ((A ++ C) ++ B2).Sublist ((A ++ C) ++ (o :: B2)) :=
          List.Sublist.append_left (List.sublist_cons_self o B2) (A ++ C)
        have hp2 : ((A ++ C) ++ B2).Pairwise Disj := List.Pairwise.sublist hsubl h3
        simpa using hp2
      have hjoinperm := joinG_merge_perm A C B2 rg o
      have hndnew : (idsOf ((A ++ C) ++ (o ++ rg) :: ([] ++ B2))).Nodup := by
        refine ids_nodup_of_perm ?_ hnd
        rw [List.nil_append]
        exact hjoinperm.symm
      obtain ⟨X, Y, rg2, heq, hsub, hGGs, hrgok2, hjoin, hsubm⟩ :=
        ih (A ++ C) [] (o ++ rg) h1new h2new h3new hrg2 hndnew
      refine ⟨X, Y, rg2, ?_, ?_, hGGs, hrgok2, ?_, ?_⟩
      · rw [mergeLoop_cons_merge ho_ne_rg hGG, hmap, herase, hshape]
        exact heq
      · have hs2 : (X ++ Y).Sublist ((A ++ C) ++ B2) := by
          simpa using hsub
        have hs3 : ((A ++ C) ++ B2).Sublist ((A ++ C) ++ (o :: B2)) :=
          List.Sublist.append_left (List.sublist_cons_self o B2) (A ++ C)
        exact hs2.trans hs3
      · refine hjoin.trans ?_
        rw [List.nil_append]
        exact hjoinperm
      · intro m hm
        exact hsubm m (List.mem_append_right _ hm)
    · -- the iterated group does not intersect the render group: skip
      have hGGf : intersectGG o rg = false := by
        cases hc : intersectGG o rg
        · rfl
        · exact absurd hc hGG
      have hshape : A ++ rg :: (C ++ o :: B2) = A ++ rg :: ((C ++ [o]) ++ B2) := by
        simp
      have h1new : ∀ h ∈ A ++ (C ++ [o]), intersectGG h rg = false := by
        intro h hh
        rw [List.mem_append, List.mem_append, List.mem_singleton] at hh
        rcases hh with hh | hh | rfl
        · exact h1 h (List.mem_append_left _ hh)
        · exact h1 h (List.mem_append_right _ hh)
        · exact hGGf
      have hlisteq : A ++ (C ++ [o]) ++ B2 = A ++ C ++ (o :: B2) := by simp
      have h2new : ∀ h ∈ A ++ (C ++ [o]) ++ B2, GrpOk h := by
        rw [hlisteq]
        exact h2
      have h3new : (A ++ (C ++ [o]) ++ B2).Pairwise Disj := by
        rw [hlisteq]
        exact h3
      have hndnew : (idsOf (A ++ rg :: ((C ++ [o]) ++ B2))).Nodup := by
        rw [← hshape]
        exact hnd
      obtain ⟨X, Y, rg2, heq, hsub, hGGs, hrgok2, hjoin, hsubm⟩ :=
        ih A (C ++ [o]) rg h1new h2new h3new hrg hndnew
      refine ⟨X, Y, rg2, ?_, ?_, hGGs, hrgok2, ?_, hsubm⟩
      · rw [mergeLoop_cons_skip ho_ne_rg hGGf, hshape]
        exact heq
      · rw [hlisteq] at hsub
        exact hsub
      · rw [← hshape] at hjoin
        exact hjoin

-- ## Assembling the insert and merge phase

theorem mergeLoop_append (s1 s2 groups : Groups) (rg : SamploGroup) :
    mergeLoop (s1 ++ s2) groups rg
      = mergeLoop s2 (mergeLoop s1 groups rg).1 (mergeLoop s1 groups rg).2 := by
  induction s1 generalizing groups rg with
  | nil => rfl
  | cons g s1 ih =>
    by_cases h1 : g = rg
    · rw [List.cons_append, mergeLoop_cons_self h1, mergeLoop_cons_self h1, ih]
    · by_cases h2 : intersectGG g rg = true
      · rw [List.cons_append, mergeLoop_cons_merge h1 h2, mergeLoop_cons_merge h1 h2, ih]
      · have h2f : intersectGG g rg = false := by
          cases hc : intersectGG g rg
          · rfl
          · exact absurd hc h2
        rw [List.cons_append, mergeLoop_cons_skip h1 h2f, mergeLoop_cons_skip h1 h2f, ih]

theorem covers_singleton (r : SRange) : covers [r] := by
  intro p h1 h2
  have e1 : gStart [r] = r.start := rfl
  have e2 : gEnd [r] = r.stop := rfl
  rw [e1] at h1
  rw [e2] at h2
  exact ⟨r, by simp, h1, h2⟩

theorem Disj_singleton_of_intersect_false {h : SamploGroup} {r : SRange}
    (hf : intersect h r = false) : Disj h [r] := by
  rw [intersect_eq_false_iff] at hf
  unfold Disj
  have e1 : gStart [r] = r.start := rfl
  have e2 : gEnd [r] = r.stop := rfl
  omega

theorem joinG_middle_perm {X Y : Groups} {b c : SamploGroup} (h : b.Perm c) :
    (joinG (X ++ b :: Y)).Perm (joinG (X ++ c :: Y)) := by
  rw [joinG_append, joinG_cons, joinG_append, joinG_cons]
  exact List.Perm.append_left _ (h.append_right _)

theorem joinG_insert_perm (pre post : Groups) (g : SamploGroup) (r : SRange) :
    (joinG (pre ++ (g ++ [r]) :: post)).Perm (r :: joinG (pre ++ g :: post)) := by
  rw [List.perm_iff_count]
  intro a
  simp only [joinG_append, joinG_cons, List.count_append, List.count_cons, List.count_nil]
  omega

theorem sortByStart_perm (g : SamploGroup) : (sortByStart g).Perm g :=
  List.perm_insertionSort startLE g

theorem sortByStart_sorted (g : SamploGroup) : List.Sorted startLE (sortByStart g) :=
  List.sorted_insertionSort startLE g

/-- Re-layering the final render group restores full group
well-formedness: the sort makes it sorted, and covering plus sortedness
restores the no-gap condition. -/
theorem grpok_sort_of_rgok {rg : SamploGroup} (h : RgOk rg) : GrpOk (sortByStart rg) := by
  have hperm : (sortByStart rg).Perm rg := sortByStart_perm rg
  have hsorted : List.Sorted startLE (sortByStart rg) := sortByStart_sorted rg
  have hne : sortByStart rg ≠ [] := by
    intro hc
    exact h.ne ((hc ▸ hperm).symm.eq_nil)
  have hvalid : ∀ m ∈ sortByStart rg, validR m := fun m hm => h.valid m (hperm.subset hm)
  have hcov : covers (sortByStart rg) := covers_perm hperm.symm h.cov
  exact ⟨hne, hsorted, covers_chained hcov hsorted hvalid, hvalid⟩

theorem Disj_perm_right {h b c : SamploGroup} (hp : b.Perm c) (hd : Disj h b) : Disj h c := by
  unfold Disj at *
  rw [← gStart_perm hp, ← gEnd_perm hp]
  exact hd

theorem insertMergePhase_eq (s : Groups) (r : SRange) :
    insertMergePhase s r
      = (mergeLoop (insertInGroupsRG s r).1 (insertInGroupsRG s r).1
            (insertInGroupsRG s r).2).1.map
          fun h =>
            if h = (mergeLoop (insertInGroupsRG s r).1 (insertInGroupsRG s r).1
                (insertInGroupsRG s r).2).2
            then update_srange_layers
              ((mergeLoop (insertInGroupsRG s r).1 (insertInGroupsRG s r).1
                (insertInGroupsRG s r).2).2)
            else h := rfl

theorem nodup_ids_insert {t s : Groups} {r : SRange}
    (hperm : (joinG t).Perm (r :: joinG s)) (hid : r.id ∉ idsOf s)
    (hnd : (idsOf s).Nodup) : (idsOf t).Nodup := by
  unfold idsOf at *
  have h1 := hperm.map SRange.id
  rw [List.map_cons] at h1
  refine h1.symm.nodup ?_
  rw [List.nodup_cons]
  exact ⟨hid, hnd⟩

/-- The insert and merge half of move_through_groups on a state with the
invariant and a range tracked by no group: the invariant holds afterwards
and the range is now tracked, all other ranges unchanged. -/
theorem insertMergePhase_spec {s : Groups} {r : SRange} (hs : StateOk s)
    (hid : r.id ∉ idsOf s) (hv : validR r) :
    StateOk (insertMergePhase s r)
    ∧ (joinG (insertMergePhase s r)).Perm (r :: joinG s) := by
  rcases insertInGroupsRG_spec s r with
    ⟨pre, g, post, hgs, h1, h2, hpre, hint⟩ | ⟨hall, h1, h2⟩
  · -- the range lands in an existing group g
    subst hgs
    have hgok : GrpOk g := hs.ok g (List.mem_append_right _ (List.mem_cons_self _ _))
    have hjoin2 : (joinG (pre ++ (g ++ [r]) :: post)).Perm (r :: joinG (pre ++ g :: post)) :=
      joinG_insert_perm pre post g r
    have hids2 : (idsOf (pre ++ (g ++ [r]) :: post)).Nodup :=
      nodup_ids_insert hjoin2 hid hs.nodup
    have hintr := (intersect_eq_true_iff g r).mp hint
    have e1 : gStart [r] = r.start := rfl
    have e2 : gEnd [r] = r.stop := rfl
    have hvr : r.start ≤ r.stop := hv
    have hrgok : RgOk (g ++ [r]) := by
      refine ⟨fun hc => hgok.ne (List.append_eq_nil.mp hc).1, ?_, ?_⟩
      · intro m hm
        rw [List.mem_append, List.mem_singleton] at hm
        rcases hm with hm | rfl
        · exact hgok.valid m hm
        · exact hv
      · exact covers_append hgok.ne (by simp) (grpok_covers hgok) (covers_singleton r)
          (by omega) (by omega) (grpok_bounds hgok) (by omega)
    have hpreGG : ∀ h2x ∈ pre, intersectGG h2x (g ++ [r]) = false := by
      intro h2x hh
      have hdg : Disj h2x g := by
        have hp := hs.disj
        rw [List.pairwise_append] at hp
        exact hp.2.2 h2x hh g (List.mem_cons_self _ _)
      have hdr : Disj h2x [r] := Disj_singleton_of_intersect_false (hpre h2x hh)
      have hvh : gStart h2x ≤ gEnd h2x :=
        grpok_bounds (hs.ok h2x (List.mem_append_left _ hh))
      rw [intersectGG_eq_false_iff]
      exact Disj_append hgok.ne (by simp) hdg hdr (by omega) (by omega) hvh
    have hskip : mergeLoop pre (pre ++ (g ++ [r]) :: post) (g ++ [r])
        = (pre ++ (g ++ [r]) :: post, g ++ [r]) :=
      mergeLoop_skip pre _ _ (fun h2x hh => Or.inr (hpreGG h2x hh))
    have hprepost : (pre ++ post).Pairwise Disj := by
      have hsubl : (pre ++ post).Sublist (pre ++ g :: post) :=
        List.Sublist.append_left (List.sublist_cons_self g post) pre
      exact List.Pairwise.sublist hsubl hs.disj
    have hok_spec : ∀ h2x ∈ pre ++ [] ++ post, GrpOk h2x := by
      intro h2x hh
      rcases List.mem_append.mp hh with hh2 | hh2
      · rcases List.mem_append.mp hh2 with hh3 | hh3
        · exact hs.ok h2x (List.mem_append_left _ hh3)
        · simp at hh3
      · exact hs.ok h2x (List.mem_append_right _ (List.mem_cons_of_mem _ hh2))
    have hdisj_spec : (pre ++ [] ++ post).Pairwise Disj := by simpa using hprepost
    have h1_spec : ∀ h2x ∈ pre ++ [], intersectGG h2x (g ++ [r]) = false := by
      intro h2x hh
      rw [List.append_nil] at hh
      exact hpreGG h2x hh
    have hnd_spec : (idsOf (pre ++ (g ++ [r]) :: ([] ++ post))).Nodup := by
      rw [List.nil_append]
      exact hids2
    obtain ⟨X, Y, rg2, heq, hsubXY, hGGs, hrgok2, hjoin3, _⟩ :=
      mergeLoop_spec post pre [] (g ++ [r]) h1_spec hok_spec hdisj_spec hrgok hnd_spec
    rw [List.nil_append] at heq hjoin3
    have hq : mergeLoop (pre ++ (g ++ [r]) :: post) (pre ++ (g ++ [r]) :: post) (g ++ [r])
        = (X ++ rg2 :: Y, rg2) := by
      rw [mergeLoop_append, hskip]
      show mergeLoop ((g ++ [r]) :: post) (pre ++ (g ++ [r]) :: post) (g ++ [r]) = _
      rw [mergeLoop_cons_self rfl]
      exact heq
    have hXYok : ∀ h2x ∈ X ++ Y, GrpOk h2x := by
      intro h2x hh
      have hmem : h2x ∈ pre ++ post := (by simpa using hsubXY : (X ++ Y).Sublist
        (pre ++ post)).subset hh
      rcases List.mem_append.mp hmem with hm | hm
      · exact hs.ok h2x (List.mem_append_left _ hm)
      · exact hs.ok h2x (List.mem_append_right _ (List.mem_cons_of_mem _ hm))
    have hXYne : ∀ g2 ∈ X ++ rg2 :: Y, g2 ≠ [] := by
      intro g2 hg2
      rw [List.mem_append, List.mem_cons] at hg2
      rcases hg2 with hg2 | rfl | hg2
      · exact (hXYok g2 (List.mem_append_left _ hg2)).ne
      · exact hrgok2.ne
      · exact (hXYok g2 (List.mem_append_right _ hg2)).ne
    have hids3 : (idsOf (X ++ rg2 :: Y)).Nodup := ids_nodup_of_perm hjoin3.symm hids2
    have hvals3 : (X ++ rg2 :: Y).Nodup := groups_nodup hXYne hids3
    have hrg2X : rg2 ∉ X := not_dup_mem hvals3 (List.mem_cons_self _ _)
    have hrg2Y : rg2 ∉ Y := by
      have := (List.nodup_append.mp hvals3).2.1
      rw [List.nodup_cons] at this
      exact this.1
    have hmapfinal : ((X ++ rg2 :: Y).map fun h2x =>
          if h2x = rg2 then update_srange_layers rg2 else h2x)
        = X ++ update_srange_layers rg2 :: Y := by
      rw [List.map_append, map_keep hrg2X, List.map_cons, if_pos rfl, map_keep hrg2Y]
    have hsortok : GrpOk (update_srange_layers rg2) := grpok_sort_of_rgok hrgok2
    have hsortperm : (update_srange_layers rg2).Perm rg2 := sortByStart_perm rg2
    have hjoinfinal : (joinG (X ++ update_srange_layers rg2 :: Y)).Perm
        (r :: joinG (pre ++ g :: post)) :=
      ((joinG_middle_perm hsortperm).trans hjoin3).trans hjoin2
    have hfinal : insertMergePhase (pre ++ g :: post) r = X ++ update_srange_layers rg2 :: Y := by
      rw [insertMergePhase_eq, h1, h2, hq]
      exact hmapfinal
    rw [hfinal]
    refine ⟨⟨?_, ?_, ?_⟩, hjoinfinal⟩
    · intro g2 hg2
      rw [List.mem_append, List.mem_cons] at hg2
      rcases hg2 with hg2 | rfl | hg2
      · exact hXYok g2 (List.mem_append_left _ hg2)
      · exact hsortok
      · exact hXYok g2 (List.mem_append_right _ hg2)
    · exact ids_nodup_of_perm (joinG_middle_perm hsortperm).symm hids3
    · have hXY : (X ++ Y).Pairwise Disj := by
        have hsubl2 : (X ++ Y).Sublist (pre ++ post) := by simpa using hsubXY
        exact List.Pairwise.sublist hsubl2 hprepost
      have hcross : ∀ h2x ∈ X ++ Y, Disj h2x (update_srange_layers rg2) := by
        intro h2x hh
        refine Disj_perm_right hsortperm.symm ?_
        exact (intersectGG_eq_false_iff _ _).mp (hGGs h2x hh)
      rw [List.pairwise_append] at hXY
      rw [List.pairwise_append]
      refine ⟨hXY.1, ?_, ?_⟩
      · rw [List.pairwise_cons]
        refine ⟨?_, hXY.2.1⟩
        intro y hy
        exact Disj_symm (hcross y (List.mem_append_right _ hy))
      · intro a ha b hb
        rw [List.mem_cons] at hb
        rcases hb with rfl | hb
        · exact hcross a (List.mem_append_left _ ha)
        · exact hXY.2.2 a ha b hb
  · -- no group intersects the range: fresh singleton group
    have hjoin2 : (joinG (s ++ [[r]])).Perm (r :: joinG s) := by
      have e : joinG (s ++ [[r]]) = joinG s ++ [r] := by
        rw [joinG_append]
        rfl
      rw [e]
      exact List.perm_append_singleton r (joinG s)
    have hids2 : (idsOf (s ++ [[r]])).Nodup := nodup_ids_insert hjoin2 hid hs.nodup
    have hskip : mergeLoop s (s ++ [[r]]) [r] = (s ++ [[r]], [r]) :=
      mergeLoop_skip s _ _ (fun h hh => Or.inr (by
        rw [intersectGG_singleton]
        exact hall h hh))
    have hq : mergeLoop (s ++ [[r]]) (s ++ [[r]]) [r] = (s ++ [[r]], [r]) := by
      rw [mergeLoop_append, hskip]
      show mergeLoop [[r]] (s ++ [[r]]) [r] = _
      rw [mergeLoop_cons_self rfl]
      rfl
    have hsort_r : update_srange_layers [r] = [r] := rfl
    have hrnotins : [r] ∉ s := by
      intro hc
      refine hid ?_
      unfold idsOf
      exact List.mem_map_of_mem _ (mem_joinG.mpr ⟨[r], hc, by simp⟩)
    have hmapfinal : ((s ++ [[r]]).map fun h2x =>
          if h2x = [r] then update_srange_layers [r] else h2x) = s ++ [[r]] := by
      rw [List.map_append, map_keep hrnotins, List.map_cons, if_pos rfl, hsort_r, List.map_nil]
    have hfinal : insertMergePhase s r = s ++ [[r]] := by
      rw [insertMergePhase_eq, h1, h2, hq]
      exact hmapfinal
    rw [hfinal]
    refine ⟨⟨?_, hids2, ?_⟩, hjoin2⟩
    · intro g2 hg2
      rw [List.mem_append, List.mem_singleton] at hg2
      rcases hg2 with hg2 | rfl
      · exact hs.ok g2 hg2
      · refine ⟨by simp, by simp, trivial, ?_⟩
        intro m hm
        rw [List.mem_singleton] at hm
        subst hm
        exact hv
    · rw [List.pairwise_append]
      refine ⟨hs.disj, by simp, ?_⟩
      intro a ha b hb
      rw [List.mem_singleton] at hb
      subst hb
      exact Disj_singleton_of_intersect_false (hall a ha)

-- ## Removal phase lemmas

theorem removePhase_not_mem :
    ∀ (s : Groups) (r : SRange), (∀ g ∈ s, r ∉ g) → removePhase s r = s := by
  intro s r
  induction s with
  | nil => intro _; rfl
  | cons g gs ih =>
    intro h
    have hr : r ∉ g := h g (List.mem_cons_self _ _)
    simp only [removePhase]
    rw [if_neg hr, ih (fun g2 hg2 => h g2 (List.mem_cons_of_mem _ hg2))]

theorem removePhase_decomp :
    ∀ (s : Groups) (r : SRange),
      (∃ P g Q, s = P ++ g :: Q ∧ r ∈ g ∧ (∀ h ∈ P, r ∉ h)
        ∧ removePhase s r = P ++ (if g.erase r = [] then Q
            else if 1 < (splitG (g.erase r)).length
              then Q ++ (splitG (g.erase r)).map update_srange_layers
              else update_srange_layers (g.erase r) :: Q))
      ∨ ((∀ g ∈ s, r ∉ g) ∧ removePhase s r = s) := by
  intro s r
  induction s with
  | nil =>
    right
    exact ⟨by simp, rfl⟩
  | cons g gs ih =>
    by_cases hmem : r ∈ g
    · left
      refine ⟨[], g, gs, rfl, hmem, by simp, ?_⟩
      simp only [removePhase]
      rw [if_pos hmem]
      rfl
    · rcases ih with ⟨P, g0, Q, hdec, hrg0, hP, heq⟩ | ⟨hall, heq⟩
      · left
        refine ⟨g :: P, g0, Q, by rw [hdec]; rfl, hrg0, ?_, ?_⟩
        · intro h hh
          rw [List.mem_cons] at hh
          rcases hh with rfl | hh
          · exact hmem
          · exact hP h hh
        · simp only [removePhase]
          rw [if_neg hmem, heq]
          rfl
      · right
        refine ⟨?_, ?_⟩
        · intro g2 hg2
          rw [List.mem_cons] at hg2
          rcases hg2 with rfl | hg2
          · exact hmem
          · exact hall g2 hg2
        · simp only [removePhase]
          rw [if_neg hmem, heq]

theorem nodup_ids_of_erase_perm {s t : Groups} {r : SRange}
    (hperm : (joinG t).Perm ((joinG s).erase r)) (hnd : (idsOf s).Nodup) :
    (idsOf t).Nodup := by
  have hsub : ((joinG s).erase r).Sublist (joinG s) := List.erase_sublist _ _
  have h1 : (((joinG s).erase r).map SRange.id).Nodup := (hsub.map SRange.id).nodup hnd
  exact (hperm.map SRange.id).symm.nodup h1

theorem bounds_within {sp g : SamploGroup} (hne : sp ≠ []) (hsub : ∀ m ∈ sp, m ∈ g) :
    gStart g ≤ gStart sp ∧ gEnd sp ≤ gEnd g := by
  obtain ⟨a, ha, hae⟩ := gStart_mem hne
  obtain ⟨b, hb, hbe⟩ := gEnd_mem hne
  have h1 := gStart_le (hsub a ha)
  have h2 := gEnd_ge (hsub b hb)
  omega

theorem Disj_of_within {h g sp : SamploGroup} (hd : Disj h g)
    (h1 : gStart g ≤ gStart sp) (h2 : gEnd sp ≤ gEnd g) : Disj h sp := by
  unfold Disj at *
  omega

theorem map_update_eq_self {L : Groups} (h : ∀ g ∈ L, List.Sorted startLE g) :
    L.map update_srange_layers = L := by
  have h2 : ∀ g ∈ L, update_srange_layers g = id g := fun g hg => (h g hg).insertionSort_eq
  rw [List.map_congr_left h2, List.map_id]

/-- The removal phase keeps the invariant and removes exactly the given
range from the tracked collection. -/
theorem removePhase_spec {s : Groups} (hs : StateOk s) (r : SRange) :
    StateOk (removePhase s r)
    ∧ (joinG (removePhase s r)).Perm ((joinG s).erase r) := by
  rcases removePhase_decomp s r with ⟨P, g, Q, hdec, hrg, hP, heq⟩ | ⟨hall, heq⟩
  · subst hdec
    have hgok : GrpOk g := hs.ok g (List.mem_append_right _ (List.mem_cons_self _ _))
    have hrjP : r ∉ joinG P := by
      intro hc
      obtain ⟨g2, hg2, hrg2⟩ := mem_joinG.mp hc
      exact hP g2 hg2 hrg2
    have herase_join : (joinG (P ++ g :: Q)).erase r = joinG P ++ (g.erase r ++ joinG Q) := by
      rw [joinG_append, joinG_cons, List.erase_append_right _ hrjP, List.erase_append_left _ hrg]
    have hg'sorted : List.Sorted startLE (g.erase r) :=
      List.Pairwise.sublist (List.erase_sublist r g) hgok.sorted
    have hg'valid : ∀ m ∈ g.erase r, validR m :=
      fun m hm => hgok.valid m ((List.erase_sublist r g).subset hm)
    have hg'subg : ∀ m ∈ g.erase r, m ∈ g := fun m hm => (List.erase_sublist r g).subset hm
    by_cases hemp : g.erase r = []
    · rw [heq, if_pos hemp]
      have hjoin : (joinG (P ++ Q)).Perm ((joinG (P ++ g :: Q)).erase r) := by
        rw [herase_join, hemp, List.nil_append, joinG_append]
      refine ⟨⟨?_, nodup_ids_of_erase_perm hjoin hs.nodup, ?_⟩, hjoin⟩
      · intro g2 hg2
        rcases List.mem_append.mp hg2 with hm | hm
        · exact hs.ok g2 (List.mem_append_left _ hm)
        · exact hs.ok g2 (List.mem_append_right _ (List.mem_cons_of_mem _ hm))
      · refine List.Pairwise.sublist ?_ hs.disj
        exact List.Sublist.append_left (List.sublist_cons_self g Q) P
    · obtain ⟨hacc, hjoinsplit⟩ := splitG_spec hg'sorted hg'valid
      have hsp_bounds : ∀ sp ∈ splitG (g.erase r),
          gStart g ≤ gStart sp ∧ gEnd sp ≤ gEnd g := by
        intro sp hsp
        refine bounds_within (hacc.ok sp hsp).ne ?_
        intro m hm
        have hmj : m ∈ joinG (splitG (g.erase r)) := mem_joinG.mpr ⟨sp, hsp, hm⟩
        rw [hjoinsplit] at hmj
        exact hg'subg m hmj
      have hPdisj : ∀ h ∈ P, Disj h g := by
        intro h hh
        have hp := hs.disj
        rw [List.pairwise_append] at hp
        exact hp.2.2 h hh g (List.mem_cons_self _ _)
      have hQdisj : ∀ h ∈ Q, Disj g h := by
        intro h hh
        have hp := hs.disj
        rw [List.pairwise_append, List.pairwise_cons] at hp
        exact hp.2.1.1 h hh
      by_cases hsplit : 1 < (splitG (g.erase r)).length
      · rw [heq, if_neg hemp, if_pos hsplit]
        have hsortedsp : ∀ sp ∈ splitG (g.erase r), List.Sorted startLE sp :=
          fun sp hsp => (hacc.ok sp hsp).sorted
        rw [map_update_eq_self hsortedsp]
        have hjoin : (joinG (P ++ (Q ++ splitG (g.erase r)))).Perm
            ((joinG (P ++ g :: Q)).erase r) := by
          rw [herase_join, joinG_append, joinG_append]
          refine List.Perm.append_left _ ?_
          rw [hjoinsplit]
          exact List.perm_append_comm
        refine ⟨⟨?_, nodup_ids_of_erase_perm hjoin hs.nodup, ?_⟩, hjoin⟩
        · intro g2 hg2
          rcases List.mem_append.mp hg2 with hm | hm
          · exact hs.ok g2 (List.mem_append_left _ hm)
          · rcases List.mem_append.mp hm with hm2 | hm2
            · exact hs.ok g2 (List.mem_append_right _ (List.mem_cons_of_mem _ hm2))
            · exact hacc.ok g2 hm2
        · rw [List.pairwise_append]
          refine ⟨?_, ?_, ?_⟩
          · have hp := hs.disj
            rw [List.pairwise_append] at hp
            exact hp.1
          · rw [List.pairwise_append]
            refine ⟨?_, splitAcc_pairwise_disj hacc, ?_⟩
            · have hp := hs.disj
              rw [List.pairwise_append, List.pairwise_cons] at hp
              exact hp.2.1.2
            · intro a ha sp hsp
              have hb := hsp_bounds sp hsp
              exact Disj_of_within (Disj_symm (hQdisj a ha)) hb.1 hb.2
          · intro a ha b hb
            rcases List.mem_append.mp hb with hm | hm
            · have hp := hs.disj
              rw [List.pairwise_append] at hp
              exact hp.2.2 a ha b (List.mem_cons_of_mem _ hm)
            · have hb2 := hsp_bounds b hm
              exact Disj_of_within (hPdisj a ha) hb2.1 hb2.2
      · rw [heq, if_neg hemp, if_neg hsplit]
        have hsingle : splitG (g.erase r) = [g.erase r] := splitG_singleton hemp (by omega)
        have hg'ok : GrpOk (g.erase r) :=
          hacc.ok (g.erase r) (by rw [hsingle]; exact List.mem_cons_self _ _)
        rw [show update_srange_layers (g.erase r) = g.erase r from
          hg'ok.sorted.insertionSort_eq]
        have hjoin : (joinG (P ++ g.erase r :: Q)).Perm ((joinG (P ++ g :: Q)).erase r) := by
          rw [herase_join, joinG_append, joinG_cons]
        have hb := bounds_within hemp hg'subg
        refine ⟨⟨?_, nodup_ids_of_erase_perm hjoin hs.nodup, ?_⟩, hjoin⟩
        · intro g2 hg2
          rcases List.mem_append.mp hg2 with hm | hm
          · exact hs.ok g2 (List.mem_append_left _ hm)
          · rcases List.mem_cons.mp hm with rfl | hm2
            · exact hg'ok
            · exact hs.ok g2 (List.mem_append_right _ (List.mem_cons_of_mem _ hm2))
        · rw [List.pairwise_append, List.pairwise_cons]
          refine ⟨?_, ⟨?_, ?_⟩, ?_⟩
          · have hp := hs.disj
            rw [List.pairwise_append] at hp
            exact hp.1
          · intro a ha
            exact Disj_symm (Disj_of_within (Disj_symm (hQdisj a ha)) hb.1 hb.2)
          · have hp := hs.disj
            rw [List.pairwise_append, List.pairwise_cons] at hp
            exact hp.2.1.2
          · intro a ha b hb2
            rcases List.mem_cons.mp hb2 with rfl | hm2
            · exact Disj_of_within (hPdisj a ha) hb.1 hb.2
            · have hp := hs.disj
              rw [List.pairwise_append] at hp
              exact hp.2.2 a ha b (List.mem_cons_of_mem _ hm2)
  · rw [heq]
    have hrj : r ∉ joinG s := by
      intro hc
      obtain ⟨g2, hg2, hrg2⟩ := mem_joinG.mp hc
      exact hall g2 hg2 hrg2
    rw [List.erase_of_not_mem hrj]
    exact ⟨hs, List.Perm.refl _⟩

-- ## In-place bound mutation before move_through_groups

theorem map_keepR {l : List SRange} {o merged : SRange} (h : o ∉ l) :
    (l.map fun x => if x = o then merged else x) = l := by
  have h2 : ∀ a ∈ l, (fun x => if x = o then merged else x) a = id a := by
    intro a ha
    have : a ≠ o := fun hc => h (hc ▸ ha)
    simp [this]
  rw [List.map_congr_left h2, List.map_id]

/-- Replacing the single occurrence of r by rn and then erasing rn is the
same as erasing r. -/
theorem map_subst_erase {g : SamploGroup} {r rn : SRange} (hidn : rn.id = r.id)
    (hnd : (g.map SRange.id).Nodup) (hr : r ∈ g) :
    (g.map fun x => if x = r then rn else x).erase rn = g.erase r := by
  induction g with
  | nil => simp at hr
  | cons x t ih =>
    rw [List.map_cons, List.nodup_cons] at hnd
    by_cases hx : x = r
    · subst hx
      rw [List.map_cons, if_pos rfl]
      have hrt : x ∉ t := fun hc => hnd.1 (List.mem_map_of_mem _ hc)
      rw [map_keepR hrt, List.erase_cons_head, List.erase_cons_head]
    · have hrt : r ∈ t := by
        rcases List.mem_cons.mp hr with h | h
        · exact absurd h.symm hx
        · exact h
      have hxrn : x ≠ rn := by
        intro hc
        refine hnd.1 ?_
        have hxid : x.id = r.id := by rw [hc, hidn]
        rw [hxid]
        exact List.mem_map_of_mem _ hrt
      rw [List.map_cons, if_neg hx, List.erase_cons_tail (by simpa using hxrn),
        List.erase_cons_tail (by simpa using fun hc => hx hc), ih hnd.2 hrt]

/-- The drag handlers mutate the bounds of the range in place before
calling move_through_groups: for a tracked range this commutes with the
removal phase, which sees exactly the old membership without the range. -/
theorem removePhase_retarget :
    ∀ (s : Groups) {r rn : SRange}, (idsOf s).Nodup → rn.id = r.id → r ∈ joinG s →
      removePhase (retarget s r rn) rn = removePhase s r := by
  intro s
  induction s with
  | nil =>
    intro r rn _ _ hmem
    simp [joinG] at hmem
  | cons g gs ih =>
    intro r rn hnd hidn hmem
    rw [idsOf_cons, List.nodup_append] at hnd
    have hretarget : retarget (g :: gs) r rn
        = (g.map fun x => if x = r then rn else x) :: retarget gs r rn := rfl
    by_cases hrg : r ∈ g
    · have hrgs : ∀ h ∈ gs, r ∉ h := by
        intro h hh hrh
        refine hnd.2.2 (List.mem_map_of_mem _ hrg) ?_
        unfold idsOf
        exact List.mem_map_of_mem _ (mem_joinG.mpr ⟨h, hh, hrh⟩)
      have hgs_id : retarget gs r rn = gs := by
        unfold retarget
        have h2 : ∀ h ∈ gs, (fun g2 : SamploGroup =>
            g2.map fun x => if x = r then rn else x) h = id h := by
          intro h hh
          show h.map _ = h
          exact map_keepR (hrgs h hh)
        rw [List.map_congr_left h2, List.map_id]
      have hsubst_mem : rn ∈ g.map fun x => if x = r then rn else x :=
        List.mem_map.mpr ⟨r, hrg, by rw [if_pos rfl]⟩
      have herase : (g.map fun x => if x = r then rn else x).erase rn = g.erase r :=
        map_subst_erase hidn hnd.1 hrg
      rw [hretarget, hgs_id]
      simp only [removePhase]
      rw [if_pos hsubst_mem, if_pos hrg, herase]
    · have hrtail : r ∈ joinG gs := by
        rcases List.mem_append.mp hmem with h | h
        · exact absurd h hrg
        · exact h
      have hrng : rn ∉ g := by
        intro hc
        refine hnd.2.2 (by
          have : rn.id ∈ g.map SRange.id := List.mem_map_of_mem _ hc
          rw [hidn] at this
          exact this) ?_
        unfold idsOf
        exact List.mem_map_of_mem _ hrtail
      rw [hretarget, show (List.map (fun x => if x = r then rn else x) g) = g from
        map_keepR hrg]
      simp only [removePhase]
      rw [if_neg hrng, if_neg hrg, ih hnd.2.1 hidn hrtail]

-- ## Top level operation specifications

/-- move_through_groups on a range tracked by no group: the removal phase
is a no-op and the insert and merge phase runs on the unchanged state. -/
theorem move_fresh_spec {s : Groups} {r : SRange} (hs : StateOk s)
    (hid : r.id ∉ idsOf s) (hv : validR r) :
    StateOk (move_through_groups s r)
    ∧ (joinG (move_through_groups s r)).Perm (r :: joinG s) := by
  have huntracked : ∀ g ∈ s, r ∉ g := by
    intro g hg hrg
    refine hid ?_
    unfold idsOf
    exact List.mem_map_of_mem _ (mem_joinG.mpr ⟨g, hg, hrg⟩)
  have hrp : removePhase s r = s := removePhase_not_mem s r huntracked
  unfold move_through_groups
  rw [hrp]
  exact insertMergePhase_spec hs hid hv

theorem erase_id_not_mem {s : Groups} {r : SRange} (hnd : (idsOf s).Nodup)
    (hmem : r ∈ joinG s) : r.id ∉ ((joinG s).erase r).map SRange.id := by
  have hperm : (joinG s).Perm (r :: (joinG s).erase r) := List.perm_cons_erase hmem
  have h2 := (hperm.map SRange.id).nodup hnd
  rw [List.map_cons, List.nodup_cons] at h2
  exact h2.1

/-- move_through_groups after an in-place bound mutation of a tracked
range: the range moves from its old group to its new place and all other
ranges are preserved. -/
theorem move_update_spec {s : Groups} {r rn : SRange} (hs : StateOk s)
    (hmem : r ∈ joinG s) (hidn : rn.id = r.id) (hv : validR rn) :
    StateOk (move_through_groups (retarget s r rn) rn)
    ∧ (joinG (move_through_groups (retarget s r rn) rn)).Perm
        (rn :: (joinG s).erase r) := by
  have hrp := removePhase_retarget s hs.nodup hidn hmem
  obtain ⟨hs1, hjoin1⟩ := removePhase_spec hs r
  have hid1 : rn.id ∉ idsOf (removePhase s r) := by
    intro hc
    unfold idsOf at hc
    have hpermids := hjoin1.map SRange.id
    have h3 : rn.id ∈ ((joinG s).erase r).map SRange.id := hpermids.subset hc
    rw [hidn] at h3
    exact erase_id_not_mem hs.nodup hmem h3
  unfold move_through_groups
  rw [hrp]
  obtain ⟨hs2, hjoin2⟩ := insertMergePhase_spec hs1 hid1 hv
  exact ⟨hs2, hjoin2.trans (hjoin1.cons rn)⟩

/-- Every state reachable from the empty manager satisfies the group list
invariant. -/
theorem reach_stateok {s : Groups} (h : Reach s) : StateOk s := by
  induction h with
  | nil =>
    refine ⟨by simp, ?_, by simp⟩
    show (([] : SamploGroup).map SRange.id).Nodup
    simp
  | insert s r hr hid hv ih => exact (move_fresh_spec ih hid hv).1
  | remove s r hr ih => exact (removePhase_spec ih r).1
  | update s r rn hr hmem hidn hv ih => exact (move_update_spec ih hmem hidn hv).1

theorem mem_unique_group {s : Groups} (hnd : (idsOf s).Nodup) {r : SRange}
    {g g2 : SamploGroup} (hg : g ∈ s) (hg2 : g2 ∈ s) (hrg : r ∈ g) (hrg2 : r ∈ g2) :
    g2 = g := by
  by_contra hne
  obtain ⟨l1, l2, rfl⟩ := List.append_of_mem hg
  have hg2m : g2 ∈ l1 ∨ g2 ∈ l2 := by
    rcases List.mem_append.mp hg2 with h | h
    · exact Or.inl h
    · rcases List.mem_cons.mp h with h | h
      · exact absurd h hne
      · exact Or.inr h
  unfold idsOf at hnd
  rw [joinG_append, joinG_cons, List.map_append, List.map_append, List.nodup_append] at hnd
  have hidg : r.id ∈ g.map SRange.id := List.mem_map_of_mem _ hrg
  rcases hg2m with h | h
  · have h2 : r.id ∈ (joinG l1).map SRange.id :=
      List.mem_map_of_mem _ (mem_joinG.mpr ⟨g2, h, hrg2⟩)
    exact hnd.2.2 h2 (List.mem_append_left _ hidg)
  · have h2 : r.id ∈ (joinG l2).map SRange.id :=
      List.mem_map_of_mem _ (mem_joinG.mpr ⟨g2, h, hrg2⟩)
    exact (List.nodup_append.mp hnd.2.1).2.2 hidg h2

/-- C1: in every state reachable from the empty manager by any sequence
of insert, remove and update operations, every tracked range belongs to
exactly one group in the group list, and the aggregate bound test of the
source reports no overlap between any two distinct groups; in particular
the single merge pass at the end of each update has restored this. -/
theorem c1_partition_invariant (s : Groups) (h : Reach s) :
    (∀ r ∈ joinG s, ∃ g, g ∈ s ∧ r ∈ g ∧ ∀ g2 ∈ s, r ∈ g2 → g2 = g)
    ∧ s.Pairwise fun g g2 => intersectGG g g2 = false := by
  have hs := reach_stateok h
  constructor
  · intro r hr
    obtain ⟨g, hg, hrg⟩ := mem_joinG.mp hr
    exact ⟨g, hg, hrg, fun g2 hg2 hrg2 => mem_unique_group hs.nodup hg hg2 hrg hrg2⟩
  · exact hs.disj.imp fun hd => (intersectGG_eq_false_iff _ _).mpr hd

/-- Witness for C1 at the state reached by inserting [0,4] and then
[10,14] into the empty manager. -/
theorem c1_partition_invariant_witness :
    (∀ r ∈ joinG (move_through_groups (move_through_groups [] ⟨0, 0, 4⟩) ⟨1, 10, 14⟩),
      ∃ g, g ∈ move_through_groups (move_through_groups [] ⟨0, 0, 4⟩) ⟨1, 10, 14⟩
        ∧ r ∈ g
        ∧ ∀ g2 ∈ move_through_groups (move_through_groups [] ⟨0, 0, 4⟩) ⟨1, 10, 14⟩,
            r ∈ g2 → g2 = g)
    ∧ (move_through_groups (move_through_groups [] ⟨0, 0, 4⟩) ⟨1, 10, 14⟩).Pairwise
        fun g g2 => intersectGG g g2 = false :=
  c1_partition_invariant _
    (Reach.insert _ ⟨1, 10, 14⟩ (Reach.insert _ ⟨0, 0, 4⟩ Reach.nil (by decide) (by decide))
      (by decide) (by decide))

/-- C5: in every reachable state each group is a single overlap-connected
component, every pair of members joined by a chain of pairwise
overlapping members; and SamploGroup.split on a sorted valid member list,
the state of a group member list after a removal, returns exactly the
overlap-connected components of the remaining members: the split groups
partition the members, each split group is nonempty and connected, and no
member of one split group overlaps a member of another. -/
theorem c5_connectivity (s : Groups) (h : Reach s) (rs : SamploGroup)
    (hsort : List.Sorted startLE rs) (hval : ∀ m ∈ rs, validR m) :
    (∀ g ∈ s, conn g)
    ∧ joinG (splitG rs) = rs
    ∧ (∀ g ∈ splitG rs, g ≠ [] ∧ conn g)
    ∧ (splitG rs).Pairwise fun g g2 => ∀ x ∈ g, ∀ y ∈ g2, ¬ overlap x y := by
  have hs := reach_stateok h
  obtain ⟨hacc, hjoin⟩ := splitG_spec hsort hval
  refine ⟨?_, hjoin, ?_, ?_⟩
  · intro g hg
    have hok := hs.ok g hg
    exact chained_conn hok.sorted hok.valid hok.chain
  · intro g hg
    have hok := hacc.ok g hg
    exact ⟨hok.ne, chained_conn hok.sorted hok.valid hok.chain⟩
  · refine (splitAcc_pairwise_disj hacc).imp ?_
    intro g g2 hd x hx y hy hov
    have h1 := gEnd_ge hx
    have h2 := gStart_le hy
    have h3 := gEnd_ge hy
    have h4 := gStart_le hx
    unfold Disj at hd
    obtain ⟨ho1, ho2⟩ := hov
    omega

/-- Witness for C5 at the two-singleton state and the member list of the
chained scenario after removing its middle range. -/
theorem c5_connectivity_witness :
    (∀ g ∈ move_through_groups (move_through_groups [] ⟨0, 0, 4⟩) ⟨1, 10, 14⟩, conn g)
    ∧ joinG (splitG [⟨0, 0, 5⟩, ⟨2, 6, 10⟩]) = [⟨0, 0, 5⟩, ⟨2, 6, 10⟩]
    ∧ (∀ g ∈ splitG [(⟨0, 0, 5⟩ : SRange), ⟨2, 6, 10⟩], g ≠ [] ∧ conn g)
    ∧ (splitG [(⟨0, 0, 5⟩ : SRange), ⟨2, 6, 10⟩]).Pairwise
        fun g g2 => ∀ x ∈ g, ∀ y ∈ g2, ¬ overlap x y :=
  c5_connectivity _
    (Reach.insert _ ⟨1, 10, 14⟩ (Reach.insert _ ⟨0, 0, 4⟩ Reach.nil (by decide) (by decide))
      (by decide) (by decide))
    [⟨0, 0, 5⟩, ⟨2, 6, 10⟩] (by simp [startLE]) (by decide)

/-- C6, counterexample: the claim states that update on an interval not
currently tracked by any group signals an unknown interval condition,
leaves all existing group state unchanged, and never fabricates a group
membership. On the code, move_through_groups on an untracked range raises
nothing, changes the group list, and gives the range a membership. -/
theorem c6_unknown_interval_counterexample :
    (⟨1, 7, 9⟩ : SRange) ∉ joinG [[(⟨0, 0, 5⟩ : SRange)]]
    ∧ move_through_groups [[(⟨0, 0, 5⟩ : SRange)]] ⟨1, 7, 9⟩
        = [[⟨0, 0, 5⟩], [⟨1, 7, 9⟩]]
    ∧ (⟨1, 7, 9⟩ : SRange) ∈ joinG (move_through_groups [[(⟨0, 0, 5⟩ : SRange)]] ⟨1, 7, 9⟩) := by
  refine ⟨by decide, by decide, by decide⟩

/-- C6, amended: on the code, the removal phase applied to an untracked
range is a silent no-op that leaves the group list unchanged and signals
nothing (SamploGroup.remove swallows the error), while move_through_groups
on an untracked range does not signal either: it runs the insert path, so
the range is tracked afterwards. -/
theorem c6_unknown_interval_amended (s : Groups) (h : Reach s) (r : SRange)
    (hid : r.id ∉ idsOf s) (hv : validR r) :
    removePhase s r = s ∧ r ∈ joinG (move_through_groups s r) := by
  have hs := reach_stateok h
  have huntracked : ∀ g ∈ s, r ∉ g := by
    intro g hg hrg
    refine hid ?_
    unfold idsOf
    exact List.mem_map_of_mem _ (mem_joinG.mpr ⟨g, hg, hrg⟩)
  refine ⟨removePhase_not_mem s r huntracked, ?_⟩
  exact (move_fresh_spec hs hid hv).2.symm.subset (List.mem_cons_self _ _)

/-- Witness for the amended C6 at a one-group state and a fresh range. -/
theorem c6_unknown_interval_amended_witness :
    removePhase (move_through_groups [] ⟨0, 0, 5⟩) ⟨1, 7, 9⟩
        = move_through_groups [] ⟨0, 0, 5⟩
    ∧ (⟨1, 7, 9⟩ : SRange) ∈ joinG (move_through_groups (move_through_groups [] ⟨0, 0, 5⟩)
        ⟨1, 7, 9⟩) :=
  c6_unknown_interval_amended _ (Reach.insert _ ⟨0, 0, 5⟩ Reach.nil (by decide) (by decide))
    ⟨1, 7, 9⟩ (by decide) (by decide)

-- ## Round trip lemmas

theorem fold_insert_spec :
    ∀ (rs : List SRange) (s : Groups), StateOk s → (∀ r ∈ rs, validR r) →
      (idsOf s ++ rs.map SRange.id).Nodup →
      StateOk (rs.foldl move_through_groups s)
      ∧ (joinG (rs.foldl move_through_groups s)).Perm (rs ++ joinG s) := by
  intro rs
  induction rs with
  | nil =>
    intro s hs _ _
    exact ⟨hs, by simp⟩
  | cons r rs ih =>
    intro s hs hv hnd
    have hid : r.id ∉ idsOf s := by
      intro hc
      rw [List.nodup_append] at hnd
      exact hnd.2.2 hc (by simp)
    obtain ⟨hs1, hjoin1⟩ := move_fresh_spec hs hid (hv r (List.mem_cons_self _ _))
    have hnd1 : (idsOf (move_through_groups s r) ++ rs.map SRange.id).Nodup := by
      have hpermids : (idsOf (move_through_groups s r) ++ rs.map SRange.id).Perm
          (idsOf s ++ (r :: rs).map SRange.id) := by
        rw [List.perm_iff_count]
        intro a
        have hidperm : (idsOf (move_through_groups s r)).Perm (r.id :: idsOf s) := by
          unfold idsOf
          have := hjoin1.map SRange.id
          rw [List.map_cons] at this
          exact this
        rw [List.count_append, List.count_append, hidperm.count_eq]
        simp [List.count_cons]
        omega
      exact hpermids.symm.nodup hnd
    obtain ⟨hs2, hjoin2⟩ := ih (move_through_groups s r) hs1
      (fun x hx => hv x (List.mem_cons_of_mem _ hx)) hnd1
    refine ⟨hs2, ?_⟩
    show (joinG (rs.foldl move_through_groups (move_through_groups s r))).Perm _
    refine hjoin2.trans ?_
    refine (List.Perm.append_left rs hjoin1).trans ?_
    rw [List.perm_iff_count]
    intro a
    simp [List.count_append, List.count_cons]
    omega

theorem stateok_join_nil {s : Groups} (hs : StateOk s) (h : joinG s = []) : s = [] := by
  cases s with
  | nil => rfl
  | cons g gs =>
    exfalso
    have hne := (hs.ok g (List.mem_cons_self _ _)).ne
    rw [joinG_cons] at h
    exact hne (List.append_eq_nil.mp h).1

theorem fold_remove_spec :
    ∀ (rsR : List SRange) (s : Groups), StateOk s → (joinG s).Perm rsR →
      rsR.foldl removePhase s = [] := by
  intro rsR
  induction rsR with
  | nil =>
    intro s hs hp
    exact stateok_join_nil hs hp.eq_nil
  | cons r rsR ih =>
    intro s hs hp
    obtain ⟨hs1, hjoin1⟩ := removePhase_spec hs r
    refine ih (removePhase s r) hs1 ?_
    refine hjoin1.trans ?_
    have h2 : ((r :: rsR).erase r) = rsR := List.erase_cons_head r rsR
    have h3 := hp.erase r
    rw [h2] at h3
    exact h3

/-- C8: inserting finitely many ranges one at a time in any order into
the empty manager and then removing them one at a time in any order
returns the manager to the empty state with no residual groups. -/
theorem c8_round_trip (rs rsR : List SRange) (hperm : rsR.Perm rs)
    (hids : (rs.map SRange.id).Nodup) (hv : ∀ r ∈ rs, validR r) :
    rsR.foldl removePhase (rs.foldl move_through_groups []) = [] := by
  have hstart : StateOk ([] : Groups) := by
    refine ⟨by simp, ?_, by simp⟩
    show (([] : SamploGroup).map SRange.id).Nodup
    simp
  have hnd : (idsOf ([] : Groups) ++ rs.map SRange.id).Nodup := by
    show (([] : SamploGroup).map SRange.id ++ rs.map SRange.id).Nodup
    simpa using hids
  obtain ⟨hs1, hjoin1⟩ := fold_insert_spec rs [] hstart hv hnd
  refine fold_remove_spec rsR _ hs1 ?_
  refine hjoin1.trans ?_
  have : rs ++ joinG ([] : Groups) = rs := by simp [joinG]
  rw [this]
  exact hperm.symm

/-- Witness for C8 at two ranges inserted and removed in swapped order. -/
theorem c8_round_trip_witness :
    ([(⟨1, 3, 8⟩ : SRange), ⟨0, 0, 4⟩]).foldl removePhase
      (([(⟨0, 0, 4⟩ : SRange), ⟨1, 3, 8⟩]).foldl move_through_groups []) = [] :=
  c8_round_trip [⟨0, 0, 4⟩, ⟨1, 3, 8⟩] [⟨1, 3, 8⟩, ⟨0, 0, 4⟩] (by decide) (by decide)
    (by decide)
